import Mathlib

/-!
Verification of the coercion-specification compiler of `phantom-coerce-derive`
(file `src/phantom-coerce-derive/src/lib.rs`).

Strings are modelled as `List Char` (the Rust code iterates `str::chars()`;
all inputs of interest are ASCII, so Rust byte indices coincide with char
indices).  Rust `char::is_whitespace` is modelled by `Char.isWhitespace`.
External collaborators (the `syn` crate's `parse_str`, attribute token
trees) are out of scope per the spec; `syn::parse_str` on a resolved type
string is modelled as succeeding and returning the text itself, and an
attribute's meta items are modelled by the `AttrItem` list handed to
`parseCoerceAttr` (the Rust function receives them from `syn`;
`path.is_ident("...")` key dispatch is modelled by the `AttrKey` tag).
-/

namespace PhantomCoerce

/-- A pattern string, modelled as its character list. -/
abbrev Str := List Char

/-- Shorthand to write concrete `Str` values from string literals. -/
def str (s : String) : Str := s.toList

/-- Rust `str::trim`: drop whitespace from both ends. -/
def trimStr (s : Str) : Str :=
  ((s.dropWhile Char.isWhitespace).reverse.dropWhile Char.isWhitespace).reverse

/-- Rust `str::split(c)`: split on every occurrence of `c`
(always at least one segment; empty segments kept). -/
def splitOnChar (sep : Char) : Str → List Str
  | [] => [[]]
  | c :: rest =>
    match splitOnChar sep rest with
    | [] => if c = sep then [[], []] else [[c]]
    | seg :: segs =>
      if c = sep then [] :: seg :: segs else (c :: seg) :: segs

/-- Does `s` start with `p`? -/
def startsWithL (p s : Str) : Bool :=
  match p, s with
  | [], _ => true
  | _ :: _, [] => false
  | a :: ps, b :: ss => a = b && startsWithL ps ss

/-- Rust `str::contains(pat)` for a literal pattern: substring search. -/
def containsStr (s p : Str) : Bool :=
  match s with
  | [] => startsWithL p []
  | _ :: rest => startsWithL p s || containsStr rest p

/-- Rust `str::find(c)`: index of the first occurrence of `c`. -/
def firstIdxOf (c : Char) : Str → Option Nat
  | [] => none
  | a :: rest => if a = c then some 0 else (firstIdxOf c rest).map (· + 1)

/-- Rust `str::rfind(c)`: index of the last occurrence of `c`. -/
def lastIdxOf (c : Char) (s : Str) : Option Nat :=
  (firstIdxOf c s.reverse).map (fun j => s.length - 1 - j)

/-- Join a list of strings with a separator. -/
def sepJoin (sep : Str) : List Str → Str
  | [] => []
  | [t] => t
  | t :: rest => t ++ sep ++ sepJoin sep rest

/-- The three coercion modes (`CoercionMode` in the source). -/
inductive CoercionMode where
  | borrowed
  | owned
  | cloned
deriving DecidableEq

/-- The attribute keys dispatched on by `parse_coerce_attr` via
`path.is_ident("...")`, plus a catch-all for unrecognized keys. -/
inductive AttrKey where
  | borrowedFrom
  | borrowedTo
  | ownedFrom
  | ownedTo
  | clonedFrom
  | clonedTo
  | unknown
deriving DecidableEq

/-- One meta item inside `#[coerce(...)]`: a `key = "value"` pair
(`Meta::NameValue` with a string literal), a bare marker (`Meta::Path`),
or any other meta form. -/
inductive AttrItem where
  | nameValue (key : AttrKey) (value : Str)
  | marker (isAsref : Bool)
  | other
deriving DecidableEq

/-- Structured view of the `syn::Error`s produced by the compiler core.
Each constructor carries the concrete values interpolated into the Rust
format string. -/
inductive CoerceError where
  | duplicateTo (mode : CoercionMode)
  | emptyPattern (key : AttrKey)
  | unknownKey
  | unknownMarker
  | expectedNameValueOrPath
  | missingMode
  | missingFrom
  | missingTo
  | mismatchedModes (fromMode toMode : CoercionMode)
  | asrefNotBorrowed
  | noopCoercion (fromPat toPat : Str)
  | typeHoleOutOfRange (pos count : Nat)
  | typeHoleMismatch (fromPat : Str) (fromHoles : List Nat) (toPat : Str) (toHoles : List Nat)
  | invalidTarget (target : Str)
deriving DecidableEq

/-- `CoercionSpec` from the source: one validated `#[coerce(...)]`
declaration fragment. -/
structure CoercionSpec where
  fromPatterns : List Str
  toPattern : Str
  kind : CoercionMode
  generateAsref : Bool
deriving DecidableEq

/-- `ParsedPattern` from the source: the resolved type (modelled by its
text) plus the recorded type-hole (wildcard) positions. -/
structure ParsedPattern where
  targetType : Str
  typeHolePositions : List Nat
deriving DecidableEq

/-- `ParsedCoercion` from the source: one expanded rule. -/
structure ParsedCoercion where
  sourceType : Str
  targetType : Str
  typeHolePositions : List Nat
deriving DecidableEq

/-- The character scan of `parse_target_with_type_holes` (the loop over
`target_str.chars()`).  State: remaining input, accumulated hole
positions, accumulated resolved text, `param_index`, `in_angle_brackets`,
`current_token`.  On a `,` (while inside brackets) or `>` the pending
token is flushed: a token trimming to `_` records the current position
and is replaced by the generic parameter name at that position, erring
when the position is out of range. -/
def scanGo (params : List Str) :
    Str → List Nat → Str → Nat → Bool → Str → Except CoerceError (List Nat × Str)
  | [], holes, resolved, _, _, current =>
    .ok (holes, resolved ++ current)
  | ch :: rest, holes, resolved, paramIndex, inAngle, current =>
    if ch = '<' then
      scanGo params rest holes (resolved ++ current ++ ['<']) 0 true []
    else if ch = '>' then
      if current.isEmpty then
        scanGo params rest holes (resolved ++ ['>']) paramIndex false []
      else if trimStr current = ['_'] then
        if paramIndex < params.length then
          scanGo params rest (holes ++ [paramIndex])
            (resolved ++ params.getD paramIndex [] ++ ['>']) paramIndex false []
        else
          .error (.typeHoleOutOfRange paramIndex params.length)
      else
        scanGo params rest holes (resolved ++ current ++ ['>']) paramIndex false []
    else if ch = ',' && inAngle then
      if current.isEmpty then
        scanGo params rest holes (resolved ++ [',', ' ']) (paramIndex + 1) inAngle []
      else if trimStr current = ['_'] then
        if paramIndex < params.length then
          scanGo params rest (holes ++ [paramIndex])
            (resolved ++ params.getD paramIndex [] ++ [',', ' ']) (paramIndex + 1) inAngle []
        else
          .error (.typeHoleOutOfRange paramIndex params.length)
      else
        scanGo params rest holes (resolved ++ current ++ [',', ' ']) (paramIndex + 1) inAngle []
    else
      scanGo params rest holes resolved paramIndex inAngle (current ++ [ch])

/-- `parse_target_with_type_holes`.  `generics` is the ordered list of the
struct's type-parameter names.  A pattern is examined for type holes by the
literal substring test `contains("<_") || contains(", _") || contains("_>")`;
without a detected hole the string is handed to `syn::parse_str` unchanged
(modelled as succeeding with the text itself) and no hole position is
recorded.  Otherwise the character scan `scanGo` resolves holes to generic
parameter names; the final `syn::parse_str` of the resolved text is likewise
modelled as succeeding. -/
def parseTargetWithTypeHoles (targetStr : Str) (generics : List Str) :
    Except CoerceError ParsedPattern :=
  let hasTypeHole :=
    containsStr targetStr (str "<_") || containsStr targetStr (str ", _") ||
      containsStr targetStr (str "_>")
  if !hasTypeHole then
    .ok { targetType := targetStr, typeHolePositions := [] }
  else
    match scanGo generics targetStr [] [] 0 false [] with
    | .error e => .error e
    | .ok (holes, resolved) =>
      .ok { targetType := resolved, typeHolePositions := holes }

/-- Loop state of `parse_coerce_attr`. -/
structure AttrState where
  mode : Option CoercionMode
  fromPatterns : List Str
  toPattern : Option Str
  hasAsref : Bool
  fromModeSeen : Option CoercionMode
  toModeSeen : Option CoercionMode
deriving DecidableEq

/-- Handling of one `<mode>_from` key inside `parse_coerce_attr`. -/
def attrFromKey (st : AttrState) (m : CoercionMode) (key : AttrKey) (value : Str) :
    Except CoerceError AttrState :=
  if (trimStr value).isEmpty then
    .error (.emptyPattern key)
  else
    .ok { st with
          mode := some m
          fromModeSeen := some m
          fromPatterns := st.fromPatterns ++ [value] }

/-- Handling of one `<mode>_to` key inside `parse_coerce_attr` (duplicate
target detection happens here, before the mode is updated). -/
def attrToKey (st : AttrState) (m : CoercionMode) (key : AttrKey) (value : Str) :
    Except CoerceError AttrState :=
  if st.toPattern.isSome then
    .error (.duplicateTo m)
  else if (trimStr value).isEmpty then
    .error (.emptyPattern key)
  else
    .ok { st with mode := some m, toModeSeen := some m, toPattern := some value }

/-- The item loop of `parse_coerce_attr`. -/
def attrLoop : List AttrItem → AttrState → Except CoerceError AttrState
  | [], st => .ok st
  | item :: rest, st =>
    match item with
    | .nameValue key value =>
      match key with
      | .borrowedFrom =>
        match attrFromKey st .borrowed key value with
        | .error e => .error e
        | .ok st2 => attrLoop rest st2
      | .borrowedTo =>
        match attrToKey st .borrowed key value with
        | .error e => .error e
        | .ok st2 => attrLoop rest st2
      | .ownedFrom =>
        match attrFromKey st .owned key value with
        | .error e => .error e
        | .ok st2 => attrLoop rest st2
      | .ownedTo =>
        match attrToKey st .owned key value with
        | .error e => .error e
        | .ok st2 => attrLoop rest st2
      | .clonedFrom =>
        match attrFromKey st .cloned key value with
        | .error e => .error e
        | .ok st2 => attrLoop rest st2
      | .clonedTo =>
        match attrToKey st .cloned key value with
        | .error e => .error e
        | .ok st2 => attrLoop rest st2
      | .unknown => .error .unknownKey
    | .marker isAsref =>
      if isAsref then attrLoop rest { st with hasAsref := true }
      else .error .unknownMarker
    | .other => .error .expectedNameValueOrPath

/-- The tail of `parse_coerce_attr`: the `asref` eligibility check and the
no-op (identity) loop, which errs on the first raw `from` pattern equal to
the raw `to` pattern after trimming. -/
def attrFinish (st : AttrState) (mode : CoercionMode) (toPattern : Str) :
    Except CoerceError CoercionSpec :=
  if st.hasAsref && mode ≠ .borrowed then
    .error .asrefNotBorrowed
  else
    match st.fromPatterns.find? (fun fp => trimStr fp = trimStr toPattern) with
    | some fp => .error (.noopCoercion fp toPattern)
    | none =>
      .ok { fromPatterns := st.fromPatterns
            toPattern := toPattern
            kind := mode
            generateAsref := st.hasAsref }

/-- `parse_coerce_attr`: process the meta items of one `#[coerce(...)]`
attribute, then run the post-loop validation in source order: missing
mode, missing source, missing target, from/to mode agreement, `asref`
eligibility, and the no-op (identity) check comparing each raw
`from` pattern with the raw `to` pattern after trimming. -/
def parseCoerceAttr (items : List AttrItem) : Except CoerceError CoercionSpec :=
  match attrLoop items ⟨none, [], none, false, none, none⟩ with
  | .error e => .error e
  | .ok st =>
    match st.mode with
    | none => .error .missingMode
    | some mode =>
      if st.fromPatterns.isEmpty then
        .error .missingFrom
      else
        match st.toPattern with
        | none => .error .missingTo
        | some toPattern =>
          match st.fromModeSeen, st.toModeSeen with
          | some fm, some tm =>
            if fm ≠ tm then
              .error (.mismatchedModes fm tm)
            else
              attrFinish st mode toPattern
          | _, _ => attrFinish st mode toPattern

/-- The character loop of `split_by_pipe_respecting_brackets`.  `depth`
is the Rust `i32` (it may go negative on unbalanced `>`; a `|` at
negative depth matches neither guard and falls through to the catch-all
arm, accumulating into the current segment).  A `|` at depth 0 pushes the
trimmed current segment if it is nonblank (the segment buffer is cleared
only in that case, exactly as in the source).  Returns the pushed
segments and the final segment buffer. -/
def pipeSplitGo : Str → Int → Str → List Str → List Str × Str
  | [], _, current, result => (result, current)
  | ch :: rest, depth, current, result =>
    if ch = '<' then
      pipeSplitGo rest (depth + 1) (current ++ ['<']) result
    else if ch = '>' then
      pipeSplitGo rest (depth - 1) (current ++ ['>']) result
    else if ch = '|' && depth > 0 then
      pipeSplitGo rest depth (current ++ ['|']) result
    else if ch = '|' && depth = 0 then
      if (trimStr current).isEmpty then
        pipeSplitGo rest depth current result
      else
        pipeSplitGo rest depth [] (result ++ [trimStr current])
    else
      pipeSplitGo rest depth (current ++ [ch]) result

/-- The depth-0 segments of a pattern string: the loop above followed by
the final flush of a nonblank trailing segment. -/
def depth0Segments (s : Str) : List Str :=
  match pipeSplitGo s 0 [] [] with
  | (result, current) =>
    if (trimStr current).isEmpty then result else result ++ [trimStr current]

/-- The Cartesian-product loop of `expand_type_parameter_alternatives`:
starting from `[""]`, each parameter's alternative set multiplies the
accumulated combinations, joining with `", "` (no separator onto an empty
accumulator). -/
def cartLoop (altSets : List (List Str)) (acc : List Str) : List Str :=
  match altSets with
  | [] => acc
  | alts :: rest =>
    cartLoop rest
      (acc.flatMap (fun r =>
        alts.map (fun alt =>
          r ++ (if r.isEmpty then [] else [',', ' ']) ++ alt)))

/-- `expand_type_parameter_alternatives`: find the first `<` and the last
`>`; split the text between them on every `,` (a plain `str::split`, not
depth-aware); split each comma segment containing `|` on `|` and trim the
pieces (a segment without `|` contributes its single trimmed value); take
the Cartesian product and substitute back between `text[..start+1]` and
`text[end..]`.  Without both brackets, the string is returned whole.
(When the last `>` precedes the first `<`, the Rust slice expressions
panic; the model truncates instead.  No theorem below touches such
inputs.) -/
def expandTypeParameterAlternatives (s : Str) : List Str :=
  match firstIdxOf '<' s, lastIdxOf '>' s with
  | some startPos, some endPos =>
    let pre := s.take (startPos + 1)
    let suf := s.drop endPos
    let params := (s.drop (startPos + 1)).take (endPos - (startPos + 1))
    let paramParts := splitOnChar ',' params
    let expandedParams := paramParts.map (fun p =>
      if p.contains '|' then (splitOnChar '|' p).map trimStr
      else [trimStr p])
    (cartLoop expandedParams [[]]).map (fun ps => pre ++ ps ++ suf)
  | _, _ => [s]

/-- `split_by_pipe_respecting_brackets`: split on depth-0 `|`; if that
leaves at most one segment while the string still contains `|`, fall back
to parameter-level expansion of the whole original string; an empty
result yields the original string. -/
def splitByPipeRespectingBrackets (s : Str) : List Str :=
  let result := depth0Segments s
  if result.length ≤ 1 && s.contains '|' then
    expandTypeParameterAlternatives s
  else if result.isEmpty then [s]
  else result

/-- The inner loop of `expand_coercion_spec`: one parsed `from`
alternative against every `to` alternative, re-parsing the `to`
alternative each iteration and validating type-hole-position equality
before a rule is pushed.  A mismatch aborts with an error carrying both
concrete alternative texts and both position lists. -/
def expandToLoop (fromAlt : Str) (fromParsed : ParsedPattern) (generics : List Str) :
    List Str → Except CoerceError (List ParsedCoercion)
  | [] => .ok []
  | toAlt :: rest =>
    match parseTargetWithTypeHoles toAlt generics with
    | .error e => .error e
    | .ok toParsed =>
      if fromParsed.typeHolePositions ≠ toParsed.typeHolePositions then
        .error (.typeHoleMismatch fromAlt fromParsed.typeHolePositions
          toAlt toParsed.typeHolePositions)
      else
        match expandToLoop fromAlt fromParsed generics rest with
        | .error e => .error e
        | .ok tail =>
          .ok ({ sourceType := fromParsed.targetType
                 targetType := toParsed.targetType
                 typeHolePositions := fromParsed.typeHolePositions } :: tail)

/-- The middle loop of `expand_coercion_spec`: each `from` alternative is
parsed once, then crossed against all `to` alternatives. -/
def expandFromLoop (toAlts : List Str) (generics : List Str) :
    List Str → Except CoerceError (List ParsedCoercion)
  | [] => .ok []
  | fromAlt :: rest =>
    match parseTargetWithTypeHoles fromAlt generics with
    | .error e => .error e
    | .ok fromParsed =>
      match expandToLoop fromAlt fromParsed generics toAlts with
      | .error e => .error e
      | .ok rules =>
        match expandFromLoop toAlts generics rest with
        | .error e => .error e
        | .ok tail => .ok (rules ++ tail)

/-- The outer loop of `expand_coercion_spec`: each raw `from` pattern is
split into alternatives and crossed against the `to` alternatives. -/
def expandSpecLoop (toAlts : List Str) (generics : List Str) :
    List Str → Except CoerceError (List ParsedCoercion)
  | [] => .ok []
  | fromPattern :: rest =>
    match expandFromLoop toAlts generics (splitByPipeRespectingBrackets fromPattern) with
    | .error e => .error e
    | .ok rules =>
      match expandSpecLoop toAlts generics rest with
      | .error e => .error e
      | .ok tail => .ok (rules ++ tail)

/-- `expand_coercion_spec`: split the `to` pattern into alternatives once,
then expand every `from` pattern against them (Cartesian product, in
source order, no deduplication). -/
def expandCoercionSpec (spec : CoercionSpec) (generics : List Str) :
    Except CoerceError (List ParsedCoercion) :=
  expandSpecLoop (splitByPipeRespectingBrackets spec.toPattern) generics spec.fromPatterns

/-- Every `from` alternative a spec expands to, across its raw `from`
patterns, in source order. -/
def allFromAlts (spec : CoercionSpec) : List Str :=
  spec.fromPatterns.flatMap splitByPipeRespectingBrackets

/-- The `to` alternatives a spec expands to. -/
def toAltsOf (spec : CoercionSpec) : List Str :=
  splitByPipeRespectingBrackets spec.toPattern

/-- The rule-collection state of `impl_coerce`: the per-mode rule lists
and the indices (into the borrowed list) marked for `AsRef` generation. -/
structure CollectState where
  borrowed : List ParsedCoercion
  owned : List ParsedCoercion
  cloned : List ParsedCoercion
  asrefFor : List Nat
deriving DecidableEq

/-- The spec loop of `impl_coerce` (lines 195-208 of the source): expand
each spec and extend the list for its mode; for a borrowed spec with the
`asref` marker, extend `generate_asref_for` with `0..borrowed.len()` —
the range as written in the source, starting from zero, not from the
index of this spec's first rule. -/
def collectCoercions (generics : List Str) :
    List CoercionSpec → CollectState → Except CoerceError CollectState
  | [], st => .ok st
  | spec :: rest, st =>
    match expandCoercionSpec spec generics with
    | .error e => .error e
    | .ok expanded =>
      match spec.kind with
      | .borrowed =>
        let b := st.borrowed ++ expanded
        let asrefFor :=
          if spec.generateAsref then st.asrefFor ++ List.range b.length
          else st.asrefFor
        collectCoercions generics rest { st with borrowed := b, asrefFor := asrefFor }
      | .owned =>
        collectCoercions generics rest { st with owned := st.owned ++ expanded }
      | .cloned =>
        collectCoercions generics rest { st with cloned := st.cloned ++ expanded }

/-- The borrowed-rule indices for which `impl_coerce` emits an `AsRef`
implementation: each index of the final borrowed list contained in
`generate_asref_for`. -/
def asrefEmittedIdx (st : CollectState) : List Nat :=
  (List.range st.borrowed.length).filter (fun i => st.asrefFor.contains i)

/-- How the generated conversion method receives the source value. -/
inductive MethodRecv where
  | byRef
  | byMove
deriving DecidableEq

/-- The body expressions occurring in the generated conversion methods. -/
inductive RustExpr where
  | selfVal
  | cloneOf (e : RustExpr)
  | transmuteOf (e : RustExpr)
deriving DecidableEq

/-- The relevant content of one generated `impl` block. -/
structure GeneratedImpl where
  recv : MethodRecv
  body : RustExpr
  sourceType : Str
  targetType : Str
  requiresClone : Bool
deriving DecidableEq

/-- `generate_cloned_impl`: requires the target to be a path type with
angle-bracketed arguments (modelled on the text by the presence of `<`),
emits `fn to_coerced(&self) -> Target` whose body is
`unsafe { std::mem::transmute(self.clone()) }` under a
`where Source: Clone` bound. -/
def generateClonedImpl (coercion : ParsedCoercion) : Except CoerceError GeneratedImpl :=
  if coercion.targetType.contains '<' then
    .ok { recv := .byRef
          body := .transmuteOf (.cloneOf .selfVal)
          sourceType := coercion.sourceType
          targetType := coercion.targetType
          requiresClone := true }
  else
    .error (.invalidTarget coercion.targetType)

/-- Value semantics of a generated conversion body, for an abstract
payload type: `self` denotes the source value, `.clone()` duplicates it
(yielding an equal value and leaving the original untouched), and
`std::mem::transmute` reinterprets the representation without changing
it.  Evaluation is innermost-first, so in
`transmute(self.clone())` the duplication happens before the
reinterpretation. -/
def evalConv {α : Type} : RustExpr → α → α
  | .selfVal, v => v
  | .cloneOf e, v => evalConv e v
  | .transmuteOf e, v => evalConv e v

/-- Running a generated conversion method on a source value: the result
of evaluating the body, paired with whether the caller retains ownership
of the source afterwards (it does exactly when the receiver is `&self`;
a by-reference receiver cannot consume or mutate the source). -/
def runMethod {α : Type} (impl : GeneratedImpl) (v : α) : α × Bool :=
  (evalConv impl.body v, impl.recv = .byRef)

/-- Does a body duplicate the whole source value first and only then
reinterpret the duplicate? -/
def dupThenReinterpret : RustExpr → Bool
  | .transmuteOf (.cloneOf _) => true
  | _ => false

/-- Modelled from the spec (section 4.2): the comma split the spec
prescribes for the bracket interior — split on commas occurring at
bracket-depth 0 only, so a comma nested inside a further bracket pair
does not separate parameters.  Used solely to compare the source's
behaviour against the specified one. -/
def specCommaSplitGo : Str → Int → Str → List Str → List Str
  | [], _, current, result => result ++ [current]
  | ch :: rest, depth, current, result =>
    if ch = '<' then specCommaSplitGo rest (depth + 1) (current ++ ['<']) result
    else if ch = '>' then specCommaSplitGo rest (depth - 1) (current ++ ['>']) result
    else if ch = ',' && depth = 0 then specCommaSplitGo rest depth [] (result ++ [current])
    else specCommaSplitGo rest depth (current ++ [ch]) result

/-- Modelled from the spec: wrapper starting the depth-aware comma split. -/
def specTopLevelCommaSplit (s : Str) : List Str :=
  specCommaSplitGo s 0 [] []

/-- Modelled from the spec (section 4.2, step 2): parameter-level
expansion as the spec words it — locate the outermost bracket pair,
split its interior on top-level commas into parameter segments, split
each segment on `|` into trimmed alternatives, and substitute the
Cartesian product back between the prefix and the suffix. -/
def specParamExpansion (s : Str) : List Str :=
  match firstIdxOf '<' s, lastIdxOf '>' s with
  | some startPos, some endPos =>
    let pre := s.take (startPos + 1)
    let suf := s.drop endPos
    let params := (s.drop (startPos + 1)).take (endPos - (startPos + 1))
    let paramParts := specTopLevelCommaSplit params
    let expandedParams := paramParts.map (fun p => (splitOnChar '|' p).map trimStr)
    (cartLoop expandedParams [[]]).map (fun ps => pre ++ ps ++ suf)
  | _, _ => [s]

/-- Is an `Except` a success? -/
def exOk {ε α : Type} : Except ε α → Bool
  | .ok _ => true
  | .error _ => false

/-- Do two alternatives both parse and disagree on their recorded
type-hole positions? -/
def altsMismatch (generics : List Str) (fromAlt toAlt : Str) : Bool :=
  match parseTargetWithTypeHoles fromAlt generics,
      parseTargetWithTypeHoles toAlt generics with
  | .ok fp, .ok tp =>
    if fp.typeHolePositions = tp.typeHolePositions then false else true
  | _, _ => false

/-- The `<mode>_from` key of a mode. -/
def fromKeyOf : CoercionMode → AttrKey
  | .borrowed => .borrowedFrom
  | .owned => .ownedFrom
  | .cloned => .clonedFrom

/-- The `<mode>_to` key of a mode. -/
def toKeyOf : CoercionMode → AttrKey
  | .borrowed => .borrowedTo
  | .owned => .ownedTo
  | .cloned => .clonedTo

/-- A token with none of the pattern language's structural characters and
no whitespace. -/
def cleanTok (t : Str) : Bool :=
  t.all (fun c => !(c = '<' || c = '>' || c = ',' || c = '|' || c.isWhitespace))

/-- Whitespace-only text. -/
def allWsStr (t : Str) : Bool := t.all Char.isWhitespace

/-- The ordered Cartesian product of per-position alternative lists,
earlier positions varying slowest (the reference order of the expansion). -/
def prodAll : List (List Str) → List (List Str)
  | [] => [[]]
  | al :: rest => al.flatMap (fun a => (prodAll rest).map (fun combo => a :: combo))

/-- The wildcard positions a slot list should induce, starting at
position `k`: the indices whose token is exactly `_`, in increasing
order. -/
def holeIdxsFrom (k : Nat) : List Str → List Nat
  | [] => []
  | t :: rest => (if t = ['_'] then [k] else []) ++ holeIdxsFrom (k + 1) rest

/-- A pattern text of the shape `base<interior>`. -/
def bracketed (base interior : Str) : Str :=
  base ++ '<' :: (interior ++ ['>'])

/-- Removal of trailing whitespace (the second half of `trimStr`). -/
def dropTrailWs (s : Str) : Str :=
  (s.reverse.dropWhile Char.isWhitespace).reverse

/-- C5 counterexample input: a fragment whose raw `from` string differs
from the raw `to` string, while one of its expanded alternatives equals
the target. -/
def c5items : List AttrItem :=
  [.nameValue .borrowedFrom (str "Base<X> | Base<Y>"),
   .nameValue .borrowedTo (str "Base<X>")]

/-- The spec the C5 counterexample input parses to. -/
def c5spec : CoercionSpec :=
  { fromPatterns := [str "Base<X> | Base<Y>"]
    toPattern := str "Base<X>"
    kind := .borrowed
    generateAsref := false }

/-- The identity rule the C5 counterexample emits. -/
def c5identityRule : ParsedCoercion :=
  { sourceType := str "Base<X>", targetType := str "Base<X>", typeHolePositions := [] }

/-- C8 failing input, first fragment: borrowed, no `asref` marker. -/
def c8specNoAsref : CoercionSpec :=
  { fromPatterns := [str "A<X>"], toPattern := str "A<Y>"
    kind := .borrowed, generateAsref := false }

/-- C8 failing input, second fragment: borrowed with the `asref` marker. -/
def c8specAsref : CoercionSpec :=
  { fromPatterns := [str "A<Z>"], toPattern := str "A<W>"
    kind := .borrowed, generateAsref := true }

/-- The collection state `impl_coerce` reaches on the C8 failing input. -/
def c8state : CollectState :=
  { borrowed :=
      [{ sourceType := str "A<X>", targetType := str "A<Y>", typeHolePositions := [] },
       { sourceType := str "A<Z>", targetType := str "A<W>", typeHolePositions := [] }]
    owned := []
    cloned := []
    asrefFor := [0, 1] }

/-- C1/C2 witness fragment: the spec's `cloned` scenario. -/
def msgSpec : CoercionSpec :=
  { fromPatterns := [str "Msg<Json|Xml|Proto, High>"]
    toPattern := str "Msg<Any, High>"
    kind := .cloned
    generateAsref := false }

/-- C1 witness fragment: the spec's wildcard-parity-mismatch scenario. -/
def parityMismatchSpec : CoercionSpec :=
  { fromPatterns := [str "T<_, A>"]
    toPattern := str "T<B, _>"
    kind := .borrowed
    generateAsref := false }

/-- C7 witness rule. -/
def c7rule : ParsedCoercion :=
  { sourceType := str "Msg<Json, High>"
    targetType := str "Msg<Any, High>"
    typeHolePositions := [] }

/-- The impl `generate_cloned_impl` emits for `c7rule`. -/
def c7impl : GeneratedImpl :=
  { recv := .byRef
    body := .transmuteOf (.cloneOf .selfVal)
    sourceType := str "Msg<Json, High>"
    targetType := str "Msg<Any, High>"
    requiresClone := true }

end PhantomCoerce

deriving instance DecidableEq for Except

namespace PhantomCoerce

theorem trimStr_eq_dropTrail (s : Str) :
    trimStr s = dropTrailWs (s.dropWhile Char.isWhitespace) := rfl

theorem dropWhile_self_eq {α : Type} (p : α → Bool) (l : List α) :
    (l.dropWhile p).dropWhile p = l.dropWhile p := by
  induction l with
  | nil => rfl
  | cons a u ih =>
    by_cases h : p a = true
    · simp [List.dropWhile_cons, h, ih]
    · simp only [Bool.not_eq_true] at h
      simp [List.dropWhile_cons, h]

theorem dropWhile_head_false {α : Type} {p : α → Bool} {l u : List α} {a : α}
    (h : l.dropWhile p = a :: u) : p a = false := by
  induction l with
  | nil => cases h
  | cons b v ih =>
    by_cases hb : p b = true
    · exact ih (by simpa [List.dropWhile_cons, hb] using h)
    · simp only [Bool.not_eq_true] at hb
      simp only [List.dropWhile_cons, hb] at h
      cases h
      simpa using hb

theorem dropTrailWs_cons {a : Char} (ha : a.isWhitespace = false) (u : Str) :
    dropTrailWs (a :: u) = a :: dropTrailWs u := by
  unfold dropTrailWs
  have h1 : (a :: u).reverse = u.reverse ++ [a] := by simp
  rw [h1, List.dropWhile_append]
  by_cases h2 : (u.reverse.dropWhile Char.isWhitespace).isEmpty = true
  · rw [if_pos h2]
    simp only [List.isEmpty_iff] at h2
    rw [h2]
    simp [List.dropWhile_cons, ha]
  · rw [if_neg h2]
    simp

theorem dropTrailWs_fixed (x : Str) : dropTrailWs (dropTrailWs x) = dropTrailWs x := by
  simp [dropTrailWs, dropWhile_self_eq]

theorem dropWhile_dropTrail_comm (s : Str) :
    (dropTrailWs (s.dropWhile Char.isWhitespace)).dropWhile Char.isWhitespace =
      dropTrailWs (s.dropWhile Char.isWhitespace) := by
  cases h : s.dropWhile Char.isWhitespace with
  | nil => rfl
  | cons a u =>
    have ha : a.isWhitespace = false := dropWhile_head_false h
    rw [dropTrailWs_cons ha, List.dropWhile_cons, ha]
    simp

theorem trimStr_fixed (s : Str) : trimStr (trimStr s) = trimStr s := by
  rw [trimStr_eq_dropTrail, trimStr_eq_dropTrail, dropWhile_dropTrail_comm,
    dropTrailWs_fixed]

theorem pipeSplitGo_fst_nonblank :
    ∀ (cs : Str) (depth : Int) (current : Str) (result : List Str),
      (∀ t ∈ result, (trimStr t).isEmpty = false) →
      ∀ t ∈ (pipeSplitGo cs depth current result).1, (trimStr t).isEmpty = false := by
  intro cs
  induction cs with
  | nil => intro depth current result h t ht; exact h t ht
  | cons c rest ih =>
    intro depth current result h t ht
    unfold pipeSplitGo at ht
    split at ht
    · exact ih _ _ _ h t ht
    · split at ht
      · exact ih _ _ _ h t ht
      · split at ht
        · exact ih _ _ _ h t ht
        · split at ht
          · split at ht
            · exact ih _ _ _ h t ht
            · next hguard =>
                refine ih _ _ _ ?_ t ht
                intro u hu
                rcases List.mem_append.mp hu with hu1 | hu2
                · exact h u hu1
                · rcases List.mem_singleton.mp hu2 with rfl
                  rw [trimStr_fixed]
                  simpa using hguard
          · exact ih _ _ _ h t ht

theorem depth0Segments_nonblank (s : Str) :
    ∀ t ∈ depth0Segments s, (trimStr t).isEmpty = false := by
  intro t ht
  unfold depth0Segments at ht
  rcases heq : pipeSplitGo s 0 [] [] with ⟨result, current⟩
  rw [heq] at ht
  have hres : ∀ u ∈ result, (trimStr u).isEmpty = false := by
    intro u hu
    have hmain := pipeSplitGo_fst_nonblank s 0 [] [] (by intro v hv; cases hv) u
    rw [heq] at hmain
    exact hmain hu
  change t ∈ (if (trimStr current).isEmpty = true then result else result ++ [trimStr current]) at ht
  by_cases hblank : (trimStr current).isEmpty = true
  · rw [if_pos hblank] at ht
    exact hres t ht
  · rw [if_neg hblank] at ht
    rcases List.mem_append.mp ht with h1 | h2
    · exact hres t h1
    · rcases List.mem_singleton.mp h2 with rfl
      rw [trimStr_fixed]
      simpa using hblank

theorem expandToLoop_ok_length {fa : Str} {fp : ParsedPattern} {g : List Str} :
    ∀ {toAlts : List Str} {l : List ParsedCoercion},
      expandToLoop fa fp g toAlts = .ok l → l.length = toAlts.length := by
  intro toAlts
  induction toAlts with
  | nil =>
    intro l h
    unfold expandToLoop at h
    cases h
    rfl
  | cons ta rest ih =>
    intro l h
    unfold expandToLoop at h
    cases hp : parseTargetWithTypeHoles ta g with
    | error e => simp [hp] at h
    | ok tp =>
      simp only [hp] at h
      by_cases hne : fp.typeHolePositions = tp.typeHolePositions
      · rw [if_neg (not_not_intro hne)] at h
        cases hr : expandToLoop fa fp g rest with
        | error e => simp [hr] at h
        | ok tail =>
          simp only [hr] at h
          cases h
          simp [ih hr]
      · rw [if_pos hne] at h
        cases h

theorem expandFromLoop_ok_length {toAlts g : List Str} :
    ∀ {fas : List Str} {l : List ParsedCoercion},
      expandFromLoop toAlts g fas = .ok l → l.length = fas.length * toAlts.length := by
  intro fas
  induction fas with
  | nil =>
    intro l h
    unfold expandFromLoop at h
    cases h
    simp
  | cons fa rest ih =>
    intro l h
    unfold expandFromLoop at h
    cases hp : parseTargetWithTypeHoles fa g with
    | error e => simp [hp] at h
    | ok fp =>
      simp only [hp] at h
      cases hto : expandToLoop fa fp g toAlts with
      | error e => simp [hto] at h
      | ok rules0 =>
        simp only [hto] at h
        cases hrest : expandFromLoop toAlts g rest with
        | error e => simp [hrest] at h
        | ok tail =>
          simp only [hrest] at h
          cases h
          rw [List.length_append, expandToLoop_ok_length hto, ih hrest,
            List.length_cons]
          ring

theorem expandSpecLoop_single {toAlts g : List Str} {p : Str} {l : List ParsedCoercion}
    (h : expandSpecLoop toAlts g [p] = .ok l) :
    l.length = (splitByPipeRespectingBrackets p).length * toAlts.length := by
  unfold expandSpecLoop at h
  cases hf : expandFromLoop toAlts g (splitByPipeRespectingBrackets p) with
  | error e => simp [hf] at h
  | ok rules0 =>
    simp only [hf] at h
    unfold expandSpecLoop at h
    simp only [] at h
    cases h
    simp [expandFromLoop_ok_length hf]

/-- C2: a declaration fragment with a single source pattern string that
expands to `N` alternatives and a target pattern string that expands to
`M` alternatives yields, when expansion succeeds, exactly `N * M`
expanded rules — one per (source alternative, target alternative) pair,
with no deduplication. -/
theorem c2_cartesian_rule_count (sOne t : Str) (mode : CoercionMode) (asr : Bool)
    (g : List Str) (rules : List ParsedCoercion)
    (h : expandCoercionSpec ⟨[sOne], t, mode, asr⟩ g = .ok rules) :
    rules.length =
      (splitByPipeRespectingBrackets sOne).length *
        (splitByPipeRespectingBrackets t).length := by
  unfold expandCoercionSpec at h
  exact expandSpecLoop_single h

/-- C2 witness: the spec scenario `cloned_from = "Msg<Json|Xml|Proto, High>"`,
`cloned_to = "Msg<Any, High>"` succeeds with exactly 3 × 1 rules. -/
theorem c2_cartesian_rule_count_witness :
    expandCoercionSpec msgSpec [] =
      .ok [{ sourceType := str "Msg<Json, High>", targetType := str "Msg<Any, High>",
             typeHolePositions := [] },
           { sourceType := str "Msg<Xml, High>", targetType := str "Msg<Any, High>",
             typeHolePositions := [] },
           { sourceType := str "Msg<Proto, High>", targetType := str "Msg<Any, High>",
             typeHolePositions := [] }] ∧
    ([{ sourceType := str "Msg<Json, High>", targetType := str "Msg<Any, High>",
        typeHolePositions := ([] : List Nat) },
      { sourceType := str "Msg<Xml, High>", targetType := str "Msg<Any, High>",
        typeHolePositions := [] },
      { sourceType := str "Msg<Proto, High>", targetType := str "Msg<Any, High>",
        typeHolePositions := [] }] : List ParsedCoercion).length =
      (splitByPipeRespectingBrackets (str "Msg<Json|Xml|Proto, High>")).length *
        (splitByPipeRespectingBrackets (str "Msg<Any, High>")).length := by
  constructor
  · rfl
  · exact c2_cartesian_rule_count (str "Msg<Json|Xml|Proto, High>") (str "Msg<Any, High>")
      .cloned false [] _ (by rfl)

/-- C7: every successfully generated `Copy`-mode (cloned) conversion has
body `transmute(self.clone())` — the whole source value is duplicated
first and only the duplicate is reinterpreted — takes the source by
reference (`&self`), and, under the value semantics of the generated
body, returns the source value while the caller retains the unchanged
source, which stays usable. -/
theorem c7_clone_then_transmute (c : ParsedCoercion) (impl : GeneratedImpl)
    (h : generateClonedImpl c = .ok impl) :
    impl.body = .transmuteOf (.cloneOf .selfVal) ∧
    dupThenReinterpret impl.body = true ∧
    impl.recv = .byRef ∧
    impl.requiresClone = true ∧
    ∀ (α : Type) (v : α), runMethod impl v = (v, true) := by
  unfold generateClonedImpl at h
  by_cases hb : c.targetType.contains '<' = true
  · rw [if_pos hb] at h
    cases h
    refine ⟨rfl, rfl, rfl, rfl, ?_⟩
    intro α v
    simp [runMethod, evalConv]
  · rw [if_neg hb] at h
    cases h

/-- C7 witness: the cloned impl generated for a concrete `Msg` rule. -/
theorem c7_clone_then_transmute_witness :
    generateClonedImpl c7rule = .ok c7impl ∧
    c7impl.body = .transmuteOf (.cloneOf .selfVal) ∧
    c7impl.recv = .byRef ∧
    runMethod c7impl (42 : Nat) = (42, true) := by
  refine ⟨by rfl, (c7_clone_then_transmute c7rule c7impl (by rfl)).1,
    (c7_clone_then_transmute c7rule c7impl (by rfl)).2.2.1,
    (c7_clone_then_transmute c7rule c7impl (by rfl)).2.2.2.2 Nat 42⟩

/-- C8: evaluation of the source at the failing input.  Two borrowed
fragments, the first without `asref`, the second with it: the rule
collection of `impl_coerce` marks indices `0..borrowed.len()` — so the
`AsRef` implementation is also emitted for rule 0, which belongs to the
fragment that did not request it, contradicting the claim that an
accessor is emitted for no rule of a fragment without the marker. -/
theorem c8_asref_emitted_for_non_requesting_fragment :
    collectCoercions [] [c8specNoAsref, c8specAsref] ⟨[], [], [], []⟩ = .ok c8state ∧
    c8specNoAsref.generateAsref = false ∧
    c8state.borrowed.get? 0 =
      some { sourceType := str "A<X>", targetType := str "A<Y>", typeHolePositions := [] } ∧
    asrefEmittedIdx c8state = [0, 1] ∧
    asrefEmittedIdx c8state ≠ [1] := by
  refine ⟨by rfl, rfl, rfl, by rfl, by decide⟩

/-- C9 (amended): whenever splitting on depth-0 `|` leaves at least two
nonblank segments, `split_by_pipe_respecting_brackets` returns exactly
those segments, each passed through unchanged even if it still contains
parameter-level alternation inside its brackets (second conjunct: the
inner `|` of `A<X|Y>` survives); the parameter-level fallback only fires
when at most one segment remains. -/
theorem c9_top_level_split_passthrough :
    (∀ s : Str, 2 ≤ (depth0Segments s).length →
      splitByPipeRespectingBrackets s = depth0Segments s) ∧
    splitByPipeRespectingBrackets (str "A<X|Y> | B<Z>") = [str "A<X|Y>", str "B<Z>"] := by
  constructor
  · intro s h
    unfold splitByPipeRespectingBrackets
    have h1 : decide ((depth0Segments s).length ≤ 1) = false := by
      simp only [decide_eq_false_iff_not]
      omega
    have h2 : (depth0Segments s).isEmpty = false := by
      rcases hs : depth0Segments s with _ | _
      · rw [hs] at h; simp at h
      · rfl
    simp only [h1, h2, Bool.false_and, Bool.false_eq_true, if_false]
  · decide

/-- C9 witness: a string with both a depth-0 `|` and an in-bracket `|`,
where the top-level split alone is performed. -/
theorem c9_top_level_split_passthrough_witness :
    2 ≤ (depth0Segments (str "A<X|Y> | B<Z>")).length ∧
    splitByPipeRespectingBrackets (str "A<X|Y> | B<Z>") =
      depth0Segments (str "A<X|Y> | B<Z>") := by
  exact ⟨by decide, c9_top_level_split_passthrough.1 (str "A<X|Y> | B<Z>") (by decide)⟩

/-- C9 counterexample: `"A<X|Y> |"` has a `|` at depth 0 and a `|` inside
brackets, yet the blank trailing alternative leaves a single depth-0
segment, so the expander reroutes the whole string through
parameter-level expansion instead of passing the segment downstream
unchanged — refuting the claim as universally stated. -/
theorem c9_counterexample_blank_segment_fallback :
    splitByPipeRespectingBrackets (str "A<X|Y> |") = [str "A<X> |", str "A<Y> |"] ∧
    splitByPipeRespectingBrackets (str "A<X|Y> |") ≠ [str "A<X|Y>"] := by
  decide

/-- C10 (amended): the depth-0 splitting loop itself never produces a
blank alternative and raises no error ("A | | B" keeps only `A` and `B`),
but the claim fails as stated: when discarding blanks leaves at most one
segment of a string still containing `|`, the whole original string is
rerouted through parameter-level expansion, and without brackets it is
returned unchanged. -/
theorem c10_blank_alternatives_discarded :
    (∀ (s : Str), ∀ t ∈ depth0Segments s, (trimStr t).isEmpty = false) ∧
    splitByPipeRespectingBrackets (str "A | | B") = [str "A", str "B"] := by
  exact ⟨depth0Segments_nonblank, by decide⟩

/-- C10 witness: the nonblank-segments invariant applied at `"A | B"`. -/
theorem c10_blank_alternatives_discarded_witness :
    str "A" ∈ depth0Segments (str "A | B") ∧
    (trimStr (str "A")).isEmpty = false := by
  exact ⟨by decide, c10_blank_alternatives_discarded.1 (str "A | B") (str "A") (by decide)⟩

/-- C10 counterexample: `"A | "` does not expand to the nonblank
alternatives only — discarding the blank leaves one segment, the
fallback fires, and the original string comes back whole. -/
theorem c10_counterexample_trailing_blank :
    splitByPipeRespectingBrackets (str "A | ") = [str "A | "] ∧
    splitByPipeRespectingBrackets (str "A | ") ≠ [str "A"] := by
  decide

/-- C5 (amended): the identity (no-op) check compares the raw
(pre-expansion) pattern strings of the fragment: for every mode, a
fragment whose raw `from` string trims equal to its raw `to` string is
rejected with the no-op error naming both raw strings.  (As the
counterexample shows, an expanded pair that is textually identical is
not rejected when the raw strings differ.) -/
theorem c5_identity_rejected_on_raw_patterns (m : CoercionMode) (fp tp : Str)
    (heq : trimStr fp = trimStr tp) (hne : (trimStr fp).isEmpty = false) :
    parseCoerceAttr [.nameValue (fromKeyOf m) fp, .nameValue (toKeyOf m) tp] =
      .error (.noopCoercion fp tp) := by
  have hne2 : (trimStr tp).isEmpty = false := heq ▸ hne
  cases m <;>
    simp [parseCoerceAttr, attrLoop, attrFromKey, attrToKey, attrFinish,
      fromKeyOf, toKeyOf, hne, hne2, List.find?, heq]

/-- C5 witness: `Base<X>` → `Base<X>` fails for the `owned` mode. -/
theorem c5_identity_rejected_on_raw_patterns_witness :
    trimStr (str "Base<X>") = trimStr (str "Base<X>") ∧
    (trimStr (str "Base<X>")).isEmpty = false ∧
    parseCoerceAttr [.nameValue (fromKeyOf .owned) (str "Base<X>"),
        .nameValue (toKeyOf .owned) (str "Base<X>")] =
      .error (.noopCoercion (str "Base<X>") (str "Base<X>")) := by
  exact ⟨rfl, by decide,
    c5_identity_rejected_on_raw_patterns .owned (str "Base<X>") (str "Base<X>")
      rfl (by decide)⟩

/-- C5 counterexample: with `borrowed_from = "Base<X> | Base<Y>"` and
`borrowed_to = "Base<X>"`, validation passes (the raw strings differ) and
expansion emits the pair `(Base<X>, Base<X>)`, whose source text equals
its target text — no identity error fires on expanded pairs, refuting
the claim as stated. -/
theorem c5_counterexample_identity_pair_emitted :
    parseCoerceAttr c5items = .ok c5spec ∧
    expandCoercionSpec c5spec [] =
      .ok [c5identityRule,
           { sourceType := str "Base<Y>", targetType := str "Base<X>",
             typeHolePositions := [] }] ∧
    c5identityRule.sourceType = c5identityRule.targetType := by
  refine ⟨by rfl, by rfl, by rfl⟩

/-- C6: a fragment supplying a mode-qualified source key and a
mode-qualified target key of different modes is rejected (during
attribute validation, before any pattern expansion runs) with a hard
error reporting both modes. -/
theorem c6_from_to_mode_agreement (m1 m2 : CoercionMode) (fp tp : Str)
    (hmm : m1 ≠ m2) (h1 : (trimStr fp).isEmpty = false)
    (h2 : (trimStr tp).isEmpty = false) :
    parseCoerceAttr [.nameValue (fromKeyOf m1) fp, .nameValue (toKeyOf m2) tp] =
      .error (.mismatchedModes m1 m2) := by
  cases m1 <;> cases m2 <;>
    first
      | exact absurd rfl hmm
      | simp [parseCoerceAttr, attrLoop, attrFromKey, attrToKey, attrFinish,
          fromKeyOf, toKeyOf, h1, h2]

/-- C6 witness: `borrowed_from` paired with `cloned_to` fails with the
mode-mismatch error reporting both modes. -/
theorem c6_from_to_mode_agreement_witness :
    CoercionMode.borrowed ≠ CoercionMode.cloned ∧
    (trimStr (str "Container<TypeA>")).isEmpty = false ∧
    (trimStr (str "Container<Generic>")).isEmpty = false ∧
    parseCoerceAttr [.nameValue (fromKeyOf .borrowed) (str "Container<TypeA>"),
        .nameValue (toKeyOf .cloned) (str "Container<Generic>")] =
      .error (.mismatchedModes .borrowed .cloned) := by
  exact ⟨by decide, by decide, by decide,
    c6_from_to_mode_agreement .borrowed .cloned (str "Container<TypeA>")
      (str "Container<Generic>") (by decide) (by decide) (by decide)⟩

theorem expandToLoop_ok_mem {fa : Str} {fp : ParsedPattern} {g : List Str} :
    ∀ {toAlts : List Str} {l : List ParsedCoercion},
      expandToLoop fa fp g toAlts = .ok l →
      ∀ r ∈ l, ∃ ta tp, ta ∈ toAlts ∧ parseTargetWithTypeHoles ta g = .ok tp ∧
        fp.typeHolePositions = tp.typeHolePositions ∧
        r = { sourceType := fp.targetType, targetType := tp.targetType,
              typeHolePositions := fp.typeHolePositions } := by
  intro toAlts
  induction toAlts with
  | nil =>
    intro l h r hr
    unfold expandToLoop at h
    cases h
    cases hr
  | cons ta rest ih =>
    intro l h r hr
    unfold expandToLoop at h
    cases hp : parseTargetWithTypeHoles ta g with
    | error e => simp [hp] at h
    | ok tp =>
      simp only [hp] at h
      by_cases hne : fp.typeHolePositions = tp.typeHolePositions
      · rw [if_neg (not_not_intro hne)] at h
        cases hr2 : expandToLoop fa fp g rest with
        | error e => simp [hr2] at h
        | ok tail =>
          simp only [hr2] at h
          cases h
          rcases List.mem_cons.mp hr with rfl | hmem
          · exact ⟨ta, tp, List.mem_cons_self _ _, hp, hne, rfl⟩
          · rcases ih hr2 r hmem with ⟨ta2, tp2, hmem2, hp2, hne2, hr2⟩
            exact ⟨ta2, tp2, List.mem_cons_of_mem _ hmem2, hp2, hne2, hr2⟩
      · rw [if_pos hne] at h
        cases h

theorem expandFromLoop_ok_mem {toAlts g : List Str} :
    ∀ {fas : List Str} {l : List ParsedCoercion},
      expandFromLoop toAlts g fas = .ok l →
      ∀ r ∈ l, ∃ fa fp ta tp, fa ∈ fas ∧ ta ∈ toAlts ∧
        parseTargetWithTypeHoles fa g = .ok fp ∧
        parseTargetWithTypeHoles ta g = .ok tp ∧
        fp.typeHolePositions = tp.typeHolePositions ∧
        r = { sourceType := fp.targetType, targetType := tp.targetType,
              typeHolePositions := fp.typeHolePositions } := by
  intro fas
  induction fas with
  | nil =>
    intro l h r hr
    unfold expandFromLoop at h
    cases h
    cases hr
  | cons fa rest ih =>
    intro l h r hr
    unfold expandFromLoop at h
    cases hp : parseTargetWithTypeHoles fa g with
    | error e => simp [hp] at h
    | ok fp =>
      simp only [hp] at h
      cases hto : expandToLoop fa fp g toAlts with
      | error e => simp [hto] at h
      | ok rules0 =>
        simp only [hto] at h
        cases hrest : expandFromLoop toAlts g rest with
        | error e => simp [hrest] at h
        | ok tail =>
          simp only [hrest] at h
          cases h
          rcases List.mem_append.mp hr with hmem | hmem
          · rcases expandToLoop_ok_mem hto r hmem with ⟨ta, tp, hta, htp, hne, hrule⟩
            exact ⟨fa, fp, ta, tp, List.mem_cons_self _ _, hta, hp, htp, hne, hrule⟩
          · rcases ih hrest r hmem with ⟨fa2, fp2, ta2, tp2, hfa2, hta2, hp2, htp2, hne2, hr2⟩
            exact ⟨fa2, fp2, ta2, tp2, List.mem_cons_of_mem _ hfa2, hta2, hp2, htp2, hne2, hr2⟩

theorem expandSpecLoop_ok_mem {toAlts g : List Str} :
    ∀ {pats : List Str} {l : List ParsedCoercion},
      expandSpecLoop toAlts g pats = .ok l →
      ∀ r ∈ l, ∃ fa fp ta tp,
        fa ∈ pats.flatMap splitByPipeRespectingBrackets ∧ ta ∈ toAlts ∧
        parseTargetWithTypeHoles fa g = .ok fp ∧
        parseTargetWithTypeHoles ta g = .ok tp ∧
        fp.typeHolePositions = tp.typeHolePositions ∧
        r = { sourceType := fp.targetType, targetType := tp.targetType,
              typeHolePositions := fp.typeHolePositions } := by
  intro pats
  induction pats with
  | nil =>
    intro l h r hr
    unfold expandSpecLoop at h
    cases h
    cases hr
  | cons p rest ih =>
    intro l h r hr
    unfold expandSpecLoop at h
    cases hf : expandFromLoop toAlts g (splitByPipeRespectingBrackets p) with
    | error e => simp [hf] at h
    | ok rules0 =>
      simp only [hf] at h
      cases hrest : expandSpecLoop toAlts g rest with
      | error e => simp [hrest] at h
      | ok tail =>
        simp only [hrest] at h
        cases h
        rcases List.mem_append.mp hr with hmem | hmem
        · rcases expandFromLoop_ok_mem hf r hmem with ⟨fa, fp, ta, tp, hfa, hta, hp, htp, hne, hrule⟩
          refine ⟨fa, fp, ta, tp, ?_, hta, hp, htp, hne, hrule⟩
          simp only [List.flatMap_cons, List.mem_append]
          exact Or.inl hfa
        · rcases ih hrest r hmem with ⟨fa, fp, ta, tp, hfa, hta, hp, htp, hne, hrule⟩
          refine ⟨fa, fp, ta, tp, ?_, hta, hp, htp, hne, hrule⟩
          simp only [List.flatMap_cons, List.mem_append]
          exact Or.inr hfa

theorem expandToLoop_all_match_ok (fa : Str) {fp : ParsedPattern} {g : List Str} :
    ∀ {toAlts : List Str},
      (∀ ta ∈ toAlts, ∃ tp, parseTargetWithTypeHoles ta g = .ok tp ∧
        fp.typeHolePositions = tp.typeHolePositions) →
      ∃ l, expandToLoop fa fp g toAlts = .ok l := by
  intro toAlts
  induction toAlts with
  | nil => intro hall; exact ⟨[], rfl⟩
  | cons ta rest ih =>
    intro hall
    rcases hall ta (List.mem_cons_self _ _) with ⟨tp, hp, hmatch⟩
    rcases ih (fun ta2 h2 => hall ta2 (List.mem_cons_of_mem _ h2)) with ⟨tail, htail⟩
    refine ⟨{ sourceType := fp.targetType, targetType := tp.targetType,
              typeHolePositions := fp.typeHolePositions } :: tail, ?_⟩
    unfold expandToLoop
    simp only [hp, htail]
    rw [if_neg (not_not_intro hmatch)]

theorem expandToLoop_mismatch_error (fa : Str) {fp : ParsedPattern} {g : List Str} :
    ∀ {toAlts : List Str},
      (∀ ta ∈ toAlts, exOk (parseTargetWithTypeHoles ta g) = true) →
      (∃ ta ∈ toAlts, ∃ tp, parseTargetWithTypeHoles ta g = .ok tp ∧
        fp.typeHolePositions ≠ tp.typeHolePositions) →
      ∃ ta tp, ta ∈ toAlts ∧ parseTargetWithTypeHoles ta g = .ok tp ∧
        fp.typeHolePositions ≠ tp.typeHolePositions ∧
        expandToLoop fa fp g toAlts =
          .error (.typeHoleMismatch fa fp.typeHolePositions ta tp.typeHolePositions) := by
  intro toAlts
  induction toAlts with
  | nil =>
    intro hall hex
    rcases hex with ⟨ta, hmem, _⟩
    cases hmem
  | cons ta rest ih =>
    intro hall hex
    have hta := hall ta (List.mem_cons_self _ _)
    cases hp : parseTargetWithTypeHoles ta g with
    | error e => rw [hp] at hta; cases hta
    | ok tp =>
      by_cases hm : fp.typeHolePositions = tp.typeHolePositions
      · have hex2 : ∃ ta2 ∈ rest, ∃ tp2, parseTargetWithTypeHoles ta2 g = .ok tp2 ∧
            fp.typeHolePositions ≠ tp2.typeHolePositions := by
          rcases hex with ⟨ta0, hmem0, tp0, hp0, hne0⟩
          rcases List.mem_cons.mp hmem0 with rfl | hmem0
          · rw [hp] at hp0
            cases hp0
            exact absurd hm hne0
          · exact ⟨ta0, hmem0, tp0, hp0, hne0⟩
        rcases ih (fun ta2 h2 => hall ta2 (List.mem_cons_of_mem _ h2)) hex2 with
          ⟨ta2, tp2, hmem2, hp2, hne2, herr2⟩
        refine ⟨ta2, tp2, List.mem_cons_of_mem _ hmem2, hp2, hne2, ?_⟩
        unfold expandToLoop
        simp only [hp, herr2]
        rw [if_neg (not_not_intro hm)]
      · refine ⟨ta, tp, List.mem_cons_self _ _, hp, hm, ?_⟩
        unfold expandToLoop
        simp only [hp]
        rw [if_pos hm]

theorem expandFromLoop_mismatch_error {toAlts g : List Str} :
    ∀ {fas : List Str},
      (∀ fa ∈ fas, exOk (parseTargetWithTypeHoles fa g) = true) →
      (∀ ta ∈ toAlts, exOk (parseTargetWithTypeHoles ta g) = true) →
      (∃ fa ∈ fas, ∃ fp, parseTargetWithTypeHoles fa g = .ok fp ∧
        ∃ ta ∈ toAlts, ∃ tp, parseTargetWithTypeHoles ta g = .ok tp ∧
          fp.typeHolePositions ≠ tp.typeHolePositions) →
      ∃ fa fp ta tp, fa ∈ fas ∧ ta ∈ toAlts ∧
        parseTargetWithTypeHoles fa g = .ok fp ∧
        parseTargetWithTypeHoles ta g = .ok tp ∧
        fp.typeHolePositions ≠ tp.typeHolePositions ∧
        expandFromLoop toAlts g fas =
          .error (.typeHoleMismatch fa fp.typeHolePositions ta tp.typeHolePositions) := by
  intro fas
  induction fas with
  | nil =>
    intro hfall htall hex
    rcases hex with ⟨fa, hmem, _⟩
    cases hmem
  | cons fa rest ih =>
    intro hfall htall hex
    have hfa := hfall fa (List.mem_cons_self _ _)
    cases hp : parseTargetWithTypeHoles fa g with
    | error e => rw [hp] at hfa; cases hfa
    | ok fp =>
      by_cases hc : ∃ ta ∈ toAlts, ∃ tp, parseTargetWithTypeHoles ta g = .ok tp ∧
          fp.typeHolePositions ≠ tp.typeHolePositions
      · rcases expandToLoop_mismatch_error fa htall hc with
          ⟨ta, tp, hta, htp, hne, herr⟩
        refine ⟨fa, fp, ta, tp, List.mem_cons_self _ _, hta, hp, htp, hne, ?_⟩
        unfold expandFromLoop
        simp only [hp, herr]
      · have hallmatch : ∀ ta ∈ toAlts, ∃ tp, parseTargetWithTypeHoles ta g = .ok tp ∧
            fp.typeHolePositions = tp.typeHolePositions := by
          intro ta hta
          have h2 := htall ta hta
          cases hp2 : parseTargetWithTypeHoles ta g with
          | error e => rw [hp2] at h2; cases h2
          | ok tp =>
            refine ⟨tp, rfl, ?_⟩
            by_contra hne
            exact hc ⟨ta, hta, tp, hp2, hne⟩
        rcases expandToLoop_all_match_ok fa hallmatch with ⟨l0, hl0⟩
        have hex2 : ∃ fa2 ∈ rest, ∃ fp2, parseTargetWithTypeHoles fa2 g = .ok fp2 ∧
            ∃ ta ∈ toAlts, ∃ tp, parseTargetWithTypeHoles ta g = .ok tp ∧
              fp2.typeHolePositions ≠ tp.typeHolePositions := by
          rcases hex with ⟨fa0, hmem0, fp0, hp0, hta0⟩
          rcases List.mem_cons.mp hmem0 with rfl | hmem0
          · rw [hp] at hp0
            cases hp0
            exact absurd hta0 hc
          · exact ⟨fa0, hmem0, fp0, hp0, hta0⟩
        rcases ih (fun fa2 h2 => hfall fa2 (List.mem_cons_of_mem _ h2)) htall hex2 with
          ⟨fa2, fp2, ta2, tp2, hfa2, hta2, hp2, htp2, hne2, herr2⟩
        refine ⟨fa2, fp2, ta2, tp2, List.mem_cons_of_mem _ hfa2, hta2, hp2, htp2, hne2, ?_⟩
        unfold expandFromLoop
        simp only [hp, hl0, herr2]

theorem expandFromLoop_all_match_ok {toAlts g : List Str} :
    ∀ {fas : List Str},
      (∀ fa ∈ fas, ∃ fp, parseTargetWithTypeHoles fa g = .ok fp ∧
        ∀ ta ∈ toAlts, ∀ tp, parseTargetWithTypeHoles ta g = .ok tp →
          fp.typeHolePositions = tp.typeHolePositions) →
      (∀ ta ∈ toAlts, exOk (parseTargetWithTypeHoles ta g) = true) →
      ∃ l, expandFromLoop toAlts g fas = .ok l := by
  intro fas
  induction fas with
  | nil => intro hfall htall; exact ⟨[], rfl⟩
  | cons fa rest ih =>
    intro hfall htall
    rcases hfall fa (List.mem_cons_self _ _) with ⟨fp, hp, hmatch⟩
    have hallmatch : ∀ ta ∈ toAlts, ∃ tp, parseTargetWithTypeHoles ta g = .ok tp ∧
        fp.typeHolePositions = tp.typeHolePositions := by
      intro ta hta
      have h2 := htall ta hta
      cases hp2 : parseTargetWithTypeHoles ta g with
      | error e => rw [hp2] at h2; cases h2
      | ok tp => exact ⟨tp, rfl, hmatch ta hta tp hp2⟩
    rcases expandToLoop_all_match_ok fa hallmatch with ⟨l0, hl0⟩
    rcases ih (fun fa2 h2 => hfall fa2 (List.mem_cons_of_mem _ h2)) htall with ⟨tail, htail⟩
    refine ⟨l0 ++ tail, ?_⟩
    unfold expandFromLoop
    simp only [hp, hl0, htail]

theorem expandSpecLoop_mismatch_error {toAlts g : List Str} :
    ∀ {pats : List Str},
      (∀ fa ∈ pats.flatMap splitByPipeRespectingBrackets,
        exOk (parseTargetWithTypeHoles fa g) = true) →
      (∀ ta ∈ toAlts, exOk (parseTargetWithTypeHoles ta g) = true) →
      (∃ fa ∈ pats.flatMap splitByPipeRespectingBrackets,
        ∃ fp, parseTargetWithTypeHoles fa g = .ok fp ∧
          ∃ ta ∈ toAlts, ∃ tp, parseTargetWithTypeHoles ta g = .ok tp ∧
            fp.typeHolePositions ≠ tp.typeHolePositions) →
      ∃ fa fp ta tp, fa ∈ pats.flatMap splitByPipeRespectingBrackets ∧ ta ∈ toAlts ∧
        parseTargetWithTypeHoles fa g = .ok fp ∧
        parseTargetWithTypeHoles ta g = .ok tp ∧
        fp.typeHolePositions ≠ tp.typeHolePositions ∧
        expandSpecLoop toAlts g pats =
          .error (.typeHoleMismatch fa fp.typeHolePositions ta tp.typeHolePositions) := by
  intro pats
  induction pats with
  | nil =>
    intro hfall htall hex
    rcases hex with ⟨fa, hmem, _⟩
    simp at hmem
  | cons p rest ih =>
    intro hfall htall hex
    have hsub : ∀ fa ∈ splitByPipeRespectingBrackets p,
        exOk (parseTargetWithTypeHoles fa g) = true := by
      intro fa h2
      refine hfall fa ?_
      simp only [List.flatMap_cons, List.mem_append]
      exact Or.inl h2
    have hsubrest : ∀ fa ∈ rest.flatMap splitByPipeRespectingBrackets,
        exOk (parseTargetWithTypeHoles fa g) = true := by
      intro fa h2
      refine hfall fa ?_
      simp only [List.flatMap_cons, List.mem_append]
      exact Or.inr h2
    by_cases hc : ∃ fa ∈ splitByPipeRespectingBrackets p,
        ∃ fp, parseTargetWithTypeHoles fa g = .ok fp ∧
          ∃ ta ∈ toAlts, ∃ tp, parseTargetWithTypeHoles ta g = .ok tp ∧
            fp.typeHolePositions ≠ tp.typeHolePositions
    · rcases expandFromLoop_mismatch_error hsub htall hc with
        ⟨fa, fp, ta, tp, hfa, hta, hp, htp, hne, herr⟩
      refine ⟨fa, fp, ta, tp, ?_, hta, hp, htp, hne, ?_⟩
      · simp only [List.flatMap_cons, List.mem_append]
        exact Or.inl hfa
      · unfold expandSpecLoop
        simp only [herr]
    · have hokfirst : ∃ l, expandFromLoop toAlts g (splitByPipeRespectingBrackets p) = .ok l := by
        refine expandFromLoop_all_match_ok ?_ htall
        intro fa h2
        have h3 := hsub fa h2
        cases hp2 : parseTargetWithTypeHoles fa g with
        | error e => rw [hp2] at h3; cases h3
        | ok fp =>
          refine ⟨fp, rfl, ?_⟩
          intro ta hta tp htp
          by_contra hne
          exact hc ⟨fa, h2, fp, hp2, ta, hta, tp, htp, hne⟩
      rcases hokfirst with ⟨l0, hl0⟩
      have hex2 : ∃ fa ∈ rest.flatMap splitByPipeRespectingBrackets,
          ∃ fp, parseTargetWithTypeHoles fa g = .ok fp ∧
            ∃ ta ∈ toAlts, ∃ tp, parseTargetWithTypeHoles ta g = .ok tp ∧
              fp.typeHolePositions ≠ tp.typeHolePositions := by
        rcases hex with ⟨fa0, hmem0, hrest0⟩
        rw [List.flatMap_cons] at hmem0
        rcases List.mem_append.mp hmem0 with hmem1 | hmem1
        · exact absurd ⟨fa0, hmem1, hrest0⟩ hc
        · exact ⟨fa0, hmem1, hrest0⟩
      rcases ih hsubrest htall hex2 with ⟨fa, fp, ta, tp, hfa, hta, hp, htp, hne, herr⟩
      refine ⟨fa, fp, ta, tp, ?_, hta, hp, htp, hne, ?_⟩
      · simp only [List.flatMap_cons, List.mem_append]
        exact Or.inr hfa
      · unfold expandSpecLoop
        simp only [hl0, herr]

/-- C1: the wildcard-parity invariant of `expand_coercion_spec`.  First
conjunct: every rule of a successful expansion arises from a
(source alternative, target alternative) pair whose recorded wildcard
(type-hole) positions are equal, the rule carrying exactly those
positions.  Second conjunct: whenever some reachable pair disagrees on
wildcard positions (with all alternatives parseable), expansion fails
with the hard error naming both concrete patterns and both position
lists — so no rule of the fragment is emitted. -/
theorem c1_wildcard_parity (spec : CoercionSpec) (g : List Str) :
    (∀ rules, expandCoercionSpec spec g = .ok rules → ∀ r ∈ rules,
      ∃ fa fp ta tp, fa ∈ allFromAlts spec ∧ ta ∈ toAltsOf spec ∧
        parseTargetWithTypeHoles fa g = .ok fp ∧
        parseTargetWithTypeHoles ta g = .ok tp ∧
        fp.typeHolePositions = tp.typeHolePositions ∧
        r = { sourceType := fp.targetType, targetType := tp.targetType,
              typeHolePositions := fp.typeHolePositions }) ∧
    ((∀ fa ∈ allFromAlts spec, exOk (parseTargetWithTypeHoles fa g) = true) →
     (∀ ta ∈ toAltsOf spec, exOk (parseTargetWithTypeHoles ta g) = true) →
     (∃ fa ∈ allFromAlts spec, ∃ fp, parseTargetWithTypeHoles fa g = .ok fp ∧
       ∃ ta ∈ toAltsOf spec, ∃ tp, parseTargetWithTypeHoles ta g = .ok tp ∧
         fp.typeHolePositions ≠ tp.typeHolePositions) →
     ∃ fa fp ta tp, fa ∈ allFromAlts spec ∧ ta ∈ toAltsOf spec ∧
       parseTargetWithTypeHoles fa g = .ok fp ∧
       parseTargetWithTypeHoles ta g = .ok tp ∧
       fp.typeHolePositions ≠ tp.typeHolePositions ∧
       expandCoercionSpec spec g =
         .error (.typeHoleMismatch fa fp.typeHolePositions ta tp.typeHolePositions)) := by
  constructor
  · intro rules h r hr
    exact expandSpecLoop_ok_mem h r hr
  · intro hfall htall hex
    exact expandSpecLoop_mismatch_error hfall htall hex

/-- C1 witness: the spec scenario `borrowed_from = "T<_, A>"`,
`borrowed_to = "T<B, _>"` over generic parameters `[Base, Kind]`: the
hole positions `[0]` and `[1]` disagree, and expansion fails with the
error naming both patterns and both position lists. -/
theorem c1_wildcard_parity_witness :
    (∀ fa ∈ allFromAlts parityMismatchSpec,
      exOk (parseTargetWithTypeHoles fa [str "Base", str "Kind"]) = true) ∧
    (∀ ta ∈ toAltsOf parityMismatchSpec,
      exOk (parseTargetWithTypeHoles ta [str "Base", str "Kind"]) = true) ∧
    (∃ fa ∈ allFromAlts parityMismatchSpec,
      ∃ fp, parseTargetWithTypeHoles fa [str "Base", str "Kind"] = .ok fp ∧
        ∃ ta ∈ toAltsOf parityMismatchSpec,
          ∃ tp, parseTargetWithTypeHoles ta [str "Base", str "Kind"] = .ok tp ∧
            fp.typeHolePositions ≠ tp.typeHolePositions) ∧
    (∃ fa fp ta tp,
      fa ∈ allFromAlts parityMismatchSpec ∧ ta ∈ toAltsOf parityMismatchSpec ∧
      parseTargetWithTypeHoles fa [str "Base", str "Kind"] = .ok fp ∧
      parseTargetWithTypeHoles ta [str "Base", str "Kind"] = .ok tp ∧
      fp.typeHolePositions ≠ tp.typeHolePositions ∧
      expandCoercionSpec parityMismatchSpec [str "Base", str "Kind"] =
        .error (.typeHoleMismatch fa fp.typeHolePositions ta tp.typeHolePositions)) := by
  have hfall : ∀ fa ∈ allFromAlts parityMismatchSpec,
      exOk (parseTargetWithTypeHoles fa [str "Base", str "Kind"]) = true := by decide
  have htall : ∀ ta ∈ toAltsOf parityMismatchSpec,
      exOk (parseTargetWithTypeHoles ta [str "Base", str "Kind"]) = true := by decide
  have hex : ∃ fa ∈ allFromAlts parityMismatchSpec,
      ∃ fp, parseTargetWithTypeHoles fa [str "Base", str "Kind"] = .ok fp ∧
        ∃ ta ∈ toAltsOf parityMismatchSpec,
          ∃ tp, parseTargetWithTypeHoles ta [str "Base", str "Kind"] = .ok tp ∧
            fp.typeHolePositions ≠ tp.typeHolePositions := by
    refine ⟨str "T<_, A>", by decide,
      { targetType := str "T<Base,  A>", typeHolePositions := [0] }, by rfl,
      str "T<B, _>", by decide,
      { targetType := str "T<B, Kind>", typeHolePositions := [1] }, by rfl, by decide⟩
  exact ⟨hfall, htall, hex,
    (c1_wildcard_parity parityMismatchSpec [str "Base", str "Kind"]).2 hfall htall hex⟩

theorem cleanTok_spec {t : Str} (h : cleanTok t = true) :
    ∀ c ∈ t, c ≠ '<' ∧ c ≠ '>' ∧ c ≠ ',' ∧ c ≠ '|' ∧ c.isWhitespace = false := by
  intro c hc
  have h2 := (List.all_eq_true.mp h) c hc
  simp only [Bool.not_eq_true', Bool.or_eq_false_iff, decide_eq_false_iff_not] at h2
  exact ⟨h2.1.1.1.1, h2.1.1.1.2, h2.1.1.2, h2.1.2, h2.2⟩

theorem dropWhile_eq_self_of_all {α : Type} {p : α → Bool} {t : List α}
    (h : ∀ c ∈ t, p c = false) : t.dropWhile p = t := by
  cases t with
  | nil => rfl
  | cons a u => simp [List.dropWhile_cons, h a (List.mem_cons_self _ _)]

theorem trimStr_eq_self {t : Str} (h : ∀ c ∈ t, c.isWhitespace = false) :
    trimStr t = t := by
  unfold trimStr
  rw [dropWhile_eq_self_of_all h,
    dropWhile_eq_self_of_all (fun c hc => h c (List.mem_reverse.mp hc)),
    List.reverse_reverse]

theorem dropWhile_append_of_all {α : Type} {p : α → Bool} {sp t : List α}
    (h : ∀ c ∈ sp, p c = true) : (sp ++ t).dropWhile p = t.dropWhile p := by
  induction sp with
  | nil => rfl
  | cons a u ih =>
    rw [List.cons_append, List.dropWhile_cons, if_pos (h a (List.mem_cons_self _ _))]
    exact ih (fun c hc => h c (List.mem_cons_of_mem _ hc))

theorem trimStr_ws_left {sp t : Str} (h : ∀ c ∈ sp, c.isWhitespace = true) :
    trimStr (sp ++ t) = trimStr t := by
  unfold trimStr
  rw [dropWhile_append_of_all h]

theorem dropTrailWs_ws_right {x sp : Str} (h : ∀ c ∈ sp, c.isWhitespace = true) :
    dropTrailWs (x ++ sp) = dropTrailWs x := by
  unfold dropTrailWs
  rw [List.reverse_append, dropWhile_append_of_all (fun c hc => h c (List.mem_reverse.mp hc))]

theorem dropWhile_eq_nil_of_all {α : Type} {p : α → Bool} {sp : List α}
    (h : ∀ c ∈ sp, p c = true) : sp.dropWhile p = [] := by
  induction sp with
  | nil => rfl
  | cons a u ih =>
    rw [List.dropWhile_cons, if_pos (h a (List.mem_cons_self _ _))]
    exact ih (fun c hc => h c (List.mem_cons_of_mem _ hc))

theorem trimStr_ws_right {t sp : Str} (h : ∀ c ∈ sp, c.isWhitespace = true) :
    trimStr (t ++ sp) = trimStr t := by
  rw [trimStr_eq_dropTrail, trimStr_eq_dropTrail]
  rw [List.dropWhile_append]
  by_cases h1 : (t.dropWhile Char.isWhitespace).isEmpty = true
  · rw [if_pos h1]
    simp only [List.isEmpty_iff] at h1
    rw [h1, dropWhile_eq_nil_of_all h]
  · rw [if_neg h1]
    exact dropTrailWs_ws_right h

theorem splitOnChar_ne_nil (c : Char) (s : Str) : splitOnChar c s ≠ [] := by
  cases s with
  | nil => simp [splitOnChar]
  | cons a rest =>
    unfold splitOnChar
    cases h : splitOnChar c rest with
    | nil => by_cases hac : a = c <;> simp [hac]
    | cons seg segs => by_cases hac : a = c <;> simp [hac]

theorem splitOnChar_of_not_mem {c : Char} {u : Str} (h : c ∉ u) :
    splitOnChar c u = [u] := by
  induction u with
  | nil => rfl
  | cons a rest ih =>
    have ha : a ≠ c := fun he => h (he ▸ List.mem_cons_self _ _)
    have hrest : c ∉ rest := fun hm => h (List.mem_cons_of_mem _ hm)
    unfold splitOnChar
    rw [ih hrest]
    simp [ha]

theorem splitOnChar_cons_ne {c a : Char} {v : Str} (ha : a ≠ c) :
    splitOnChar c (a :: v) =
      (a :: (splitOnChar c v).headD []) :: (splitOnChar c v).tail := by
  conv_lhs => unfold splitOnChar
  cases h : splitOnChar c v with
  | nil => exact absurd h (splitOnChar_ne_nil c v)
  | cons seg segs => simp [ha]

theorem splitOnChar_append_cons {c : Char} {u v : Str} (h : c ∉ u) :
    splitOnChar c (u ++ c :: v) = u :: splitOnChar c v := by
  induction u with
  | nil =>
    simp only [List.nil_append]
    conv_lhs => unfold splitOnChar
    cases hsp : splitOnChar c v with
    | nil => exact absurd hsp (splitOnChar_ne_nil c v)
    | cons seg segs => simp
  | cons a rest ih =>
    have ha : a ≠ c := fun he => h (he ▸ List.mem_cons_self _ _)
    have hrest : c ∉ rest := fun hm => h (List.mem_cons_of_mem _ hm)
    rw [List.cons_append, splitOnChar_cons_ne ha, ih hrest]
    simp

theorem firstIdxOf_append_cons {c : Char} {u v : Str} (h : c ∉ u) :
    firstIdxOf c (u ++ c :: v) = some u.length := by
  induction u with
  | nil => simp [firstIdxOf]
  | cons a rest ih =>
    have ha : a ≠ c := fun he => h (he ▸ List.mem_cons_self _ _)
    have hrest : c ∉ rest := fun hm => h (List.mem_cons_of_mem _ hm)
    rw [List.cons_append]
    unfold firstIdxOf
    rw [if_neg ha, ih hrest]
    simp

theorem lastIdxOf_concat {c : Char} {w : Str} (_h : c ∉ w) :
    lastIdxOf c (w ++ [c]) = some w.length := by
  unfold lastIdxOf
  have h1 : (w ++ [c]).reverse = c :: w.reverse := by simp
  rw [h1]
  unfold firstIdxOf
  rw [if_pos rfl]
  simp

theorem sepJoin_mem_of_mem {sep : Str} {xs : List Str} {x : Str} {a : Char}
    (hx : x ∈ xs) (ha : a ∈ x) : a ∈ sepJoin sep xs := by
  induction xs with
  | nil => cases hx
  | cons y rest ih =>
    rcases List.mem_cons.mp hx with rfl | hx2
    · cases rest with
      | nil => simpa [sepJoin] using ha
      | cons z zs =>
        unfold sepJoin
        simp only [List.append_assoc, List.mem_append]
        exact Or.inl ha
    · cases rest with
      | nil => cases hx2
      | cons z zs =>
        unfold sepJoin
        simp only [List.append_assoc, List.mem_append]
        exact Or.inr (Or.inr (ih hx2))

theorem sepJoin_chars {sep : Str} {xs : List Str} {a : Char}
    (ha : a ∈ sepJoin sep xs) : a ∈ sep ∨ ∃ x ∈ xs, a ∈ x := by
  induction xs with
  | nil => cases ha
  | cons y rest ih =>
    cases rest with
    | nil =>
      simp only [sepJoin] at ha
      exact Or.inr ⟨y, List.mem_cons_self _ _, ha⟩
    | cons z zs =>
      unfold sepJoin at ha
      simp only [List.append_assoc, List.mem_append] at ha
      rcases ha with h1 | h2 | h3
      · exact Or.inr ⟨y, List.mem_cons_self _ _, h1⟩
      · exact Or.inl h2
      · rcases ih h3 with hs | ⟨x, hx, hax⟩
        · exact Or.inl hs
        · exact Or.inr ⟨x, List.mem_cons_of_mem _ hx, hax⟩

theorem pipe_mem_sepJoinBar {al : List Str} (h : 2 ≤ al.length) :
    ('|' : Char) ∈ sepJoin [' ', '|', ' '] al := by
  cases al with
  | nil => simp at h
  | cons a rest =>
    cases rest with
    | nil => simp at h
    | cons b bs =>
      unfold sepJoin
      simp

theorem sepJoin_cons_flat (sep : Str) (a : Str) (combo : List Str) :
    sepJoin sep (a :: combo) = a ++ combo.flatMap (fun t => sep ++ t) := by
  induction combo generalizing a with
  | nil => simp [sepJoin]
  | cons c cs ih =>
    unfold sepJoin
    rw [ih c]
    simp

theorem trimStr_eq_self_of_ends {l : Str}
    (h1 : ∀ c, l.head? = some c → c.isWhitespace = false)
    (h2 : ∀ c, l.getLast? = some c → c.isWhitespace = false) :
    trimStr l = l := by
  cases l with
  | nil => rfl
  | cons a u =>
    have ha : a.isWhitespace = false := h1 a rfl
    rw [trimStr_eq_dropTrail, List.dropWhile_cons, if_neg (by simp [ha])]
    cases hrev : (a :: u).reverse with
    | nil => simp at hrev
    | cons d w =>
      have hd : d.isWhitespace = false := by
        refine h2 d ?_
        rw [← List.head?_reverse, hrev]
        rfl
      unfold dropTrailWs
      rw [hrev, List.dropWhile_cons, if_neg (by simp [hd]), ← hrev,
        List.reverse_reverse]

theorem pipeSplitGo_chunk :
    ∀ (t : Str), (∀ c ∈ t, c ≠ '<' ∧ c ≠ '>' ∧ c ≠ '|') →
      ∀ (rest : Str) (depth : Int) (current : Str) (result : List Str),
        pipeSplitGo (t ++ rest) depth current result =
          pipeSplitGo rest depth (current ++ t) result := by
  intro t
  induction t with
  | nil => intro h rest depth current result; simp
  | cons a u ih =>
    intro h rest depth current result
    rcases h a (List.mem_cons_self _ _) with ⟨h1, h2, h3⟩
    rw [List.cons_append]
    conv_lhs => unfold pipeSplitGo
    rw [if_neg h1, if_neg h2,
      if_neg (by simp [h3] : ¬((a = '|' && decide (depth > 0)) = true)),
      if_neg (by simp [h3] : ¬((a = '|' && decide (depth = 0)) = true)),
      ih (fun c hc => h c (List.mem_cons_of_mem _ hc))]
    simp

theorem pipeSplitGo_inside :
    ∀ (u : Str), (∀ c ∈ u, c ≠ '<' ∧ c ≠ '>') →
      ∀ (rest : Str) (depth : Int), 0 < depth →
        ∀ (current : Str) (result : List Str),
          pipeSplitGo (u ++ rest) depth current result =
            pipeSplitGo rest depth (current ++ u) result := by
  intro u
  induction u with
  | nil => intro h rest depth hd current result; simp
  | cons a v ih =>
    intro h rest depth hd current result
    rcases h a (List.mem_cons_self _ _) with ⟨h1, h2⟩
    rw [List.cons_append]
    conv_lhs => unfold pipeSplitGo
    rw [if_neg h1, if_neg h2]
    by_cases h3 : a = '|'
    · rw [if_pos (by simpa [h3] using hd : (a = '|' && decide (depth > 0)) = true),
        ih (fun c hc => h c (List.mem_cons_of_mem _ hc)) rest depth hd]
      simp [h3]
    · rw [if_neg (by simp [h3] : ¬((a = '|' && decide (depth > 0)) = true)),
        if_neg (by simp [h3] : ¬((a = '|' && decide (depth = 0)) = true)),
        ih (fun c hc => h c (List.mem_cons_of_mem _ hc)) rest depth hd]
      simp

theorem bracketed_concat (base interior : Str) :
    bracketed base interior = (base ++ '<' :: interior) ++ ['>'] := by
  simp [bracketed]

theorem depth0Segments_bracket (base interior : Str)
    (hb : ∀ c ∈ base, c ≠ '<' ∧ c ≠ '>' ∧ c ≠ '|' ∧ c.isWhitespace = false)
    (hi : ∀ c ∈ interior, c ≠ '<' ∧ c ≠ '>') :
    depth0Segments (bracketed base interior) = [bracketed base interior] := by
  have hsplit : pipeSplitGo (bracketed base interior) 0 [] [] =
      ([], bracketed base interior) := by
    unfold bracketed
    rw [pipeSplitGo_chunk base
      (fun c hc => ⟨(hb c hc).1, (hb c hc).2.1, (hb c hc).2.2.1⟩)]
    conv_lhs => unfold pipeSplitGo
    rw [if_pos rfl]
    simp only [List.nil_append]
    rw [pipeSplitGo_inside interior hi ['>'] (0 + 1) (by norm_num)]
    conv_lhs => unfold pipeSplitGo
    rw [if_neg (by decide : ¬(('>' : Char) = '<')), if_pos rfl]
    unfold pipeSplitGo
    simp
  unfold depth0Segments
  rw [hsplit]
  have htrim : trimStr (bracketed base interior) = bracketed base interior := by
    refine trimStr_eq_self_of_ends ?_ ?_
    · intro c hc
      cases base with
      | nil =>
        have hcc : '<' = c := by
          simpa [bracketed] using hc
        rw [← hcc]
        decide
      | cons b bs =>
        have hcc : b = c := by
          simpa [bracketed] using hc
        rw [← hcc]
        exact (hb b (List.mem_cons_self _ _)).2.2.2
    · intro c hc
      rw [bracketed_concat, List.getLast?_concat] at hc
      cases hc
      decide
  have hne : (bracketed base interior).isEmpty = false := by
    cases base <;> simp [bracketed]
  change (if (trimStr (bracketed base interior)).isEmpty = true then ([] : List Str)
    else [] ++ [trimStr (bracketed base interior)]) = [bracketed base interior]
  rw [htrim, if_neg (by simp [hne])]
  simp

theorem splitByPipe_bracket_fallback (base interior : Str)
    (hb : ∀ c ∈ base, c ≠ '<' ∧ c ≠ '>' ∧ c ≠ '|' ∧ c.isWhitespace = false)
    (hi : ∀ c ∈ interior, c ≠ '<' ∧ c ≠ '>')
    (hpipe : ('|' : Char) ∈ interior) :
    splitByPipeRespectingBrackets (bracketed base interior) =
      expandTypeParameterAlternatives (bracketed base interior) := by
  unfold splitByPipeRespectingBrackets
  rw [depth0Segments_bracket base interior hb hi]
  have hcont : (bracketed base interior).contains '|' = true := by
    refine List.elem_iff.mpr ?_
    simp [bracketed, hpipe]
  have hcond : (decide (([bracketed base interior] : List Str).length ≤ 1) &&
      (bracketed base interior).contains '|') = true := by
    rw [hcont]
    simp
  rw [if_pos hcond]

theorem splitComma_sepJoin (p0 : Str) (rest : List Str)
    (h : ∀ p ∈ p0 :: rest, (',' : Char) ∉ p) :
    splitOnChar ',' (sepJoin [',', ' '] (p0 :: rest)) =
      p0 :: rest.map (fun q => ' ' :: q) := by
  induction rest generalizing p0 with
  | nil =>
    simp only [sepJoin, List.map_nil]
    exact splitOnChar_of_not_mem (h p0 (List.mem_cons_self _ _))
  | cons q qs ih =>
    have hp0 : (',' : Char) ∉ p0 := h p0 (List.mem_cons_self _ _)
    have hjoin : sepJoin [',', ' '] (p0 :: q :: qs) =
        p0 ++ ',' :: ' ' :: sepJoin [',', ' '] (q :: qs) := by
      simp [sepJoin]
    rw [hjoin, splitOnChar_append_cons hp0,
      splitOnChar_cons_ne (by decide : (' ' : Char) ≠ ','),
      ih q (fun p hp => h p (List.mem_cons_of_mem _ hp))]
    simp

theorem mapTrim_split_cons_ws {c a : Char} {v : Str}
    (hws : a.isWhitespace = true) (hne : a ≠ c) :
    (splitOnChar c (a :: v)).map trimStr = (splitOnChar c v).map trimStr := by
  rw [splitOnChar_cons_ne hne]
  cases hsp : splitOnChar c v with
  | nil => exact absurd hsp (splitOnChar_ne_nil c v)
  | cons s0 segs =>
    have htr : trimStr (a :: s0) = trimStr s0 := by
      have : ([a] ++ s0) = a :: s0 := by simp
      rw [← this]
      exact trimStr_ws_left (by intro x hx; rw [List.mem_singleton.mp hx]; exact hws)
    simp [htr]

theorem mapTrim_splitBar (al : List Str) (hne : al ≠ [])
    (htok : ∀ t ∈ al, (∀ c ∈ t, c.isWhitespace = false) ∧ ('|' : Char) ∉ t) :
    (splitOnChar '|' (sepJoin [' ', '|', ' '] al)).map trimStr = al := by
  induction al with
  | nil => cases hne rfl
  | cons t rest ih =>
    cases rest with
    | nil =>
      simp only [sepJoin, List.map_nil]
      rw [splitOnChar_of_not_mem (htok t (List.mem_cons_self _ _)).2]
      simp [trimStr_eq_self (htok t (List.mem_cons_self _ _)).1]
    | cons t2 qs =>
      have hjoin : sepJoin [' ', '|', ' '] (t :: t2 :: qs) =
          (t ++ [' ']) ++ '|' :: (' ' :: sepJoin [' ', '|', ' '] (t2 :: qs)) := by
        simp [sepJoin]
      have hnem : ('|' : Char) ∉ t ++ [' '] := by
        intro hmem
        rcases List.mem_append.mp hmem with h1 | h2
        · exact (htok t (List.mem_cons_self _ _)).2 h1
        · simp at h2
      rw [hjoin, splitOnChar_append_cons hnem, List.map_cons,
        mapTrim_split_cons_ws (by decide) (by decide),
        ih (by simp) (fun u hu => htok u (List.mem_cons_of_mem _ hu))]
      have htr : trimStr (t ++ [' ']) = t := by
        rw [trimStr_ws_right (by intro x hx; rw [List.mem_singleton.mp hx]; rfl)]
        exact trimStr_eq_self (htok t (List.mem_cons_self _ _)).1
      rw [htr]

theorem contains_eq_false_of_not_mem {c : Char} {t : Str} (h : c ∉ t) :
    t.contains c = false := by
  cases hb : t.contains c with
  | false => rfl
  | true => exact absurd (List.elem_iff.mp hb) h

theorem branch_piece (al : List Str) (hne : al ≠ [])
    (htok : ∀ t ∈ al, (∀ c ∈ t, c.isWhitespace = false) ∧ ('|' : Char) ∉ t) :
    (if (sepJoin [' ', '|', ' '] al).contains '|' then
        (splitOnChar '|' (sepJoin [' ', '|', ' '] al)).map trimStr
      else [trimStr (sepJoin [' ', '|', ' '] al)]) = al := by
  cases al with
  | nil => cases hne rfl
  | cons t rest =>
    cases rest with
    | nil =>
      have hnm : ('|' : Char) ∉ sepJoin [' ', '|', ' '] [t] := by
        simp only [sepJoin]
        exact (htok t (List.mem_cons_self _ _)).2
      rw [if_neg (by rw [contains_eq_false_of_not_mem hnm]; simp)]
      simp only [sepJoin]
      simp [trimStr_eq_self (htok t (List.mem_cons_self _ _)).1]
    | cons t2 qs =>
      have hc : (sepJoin [' ', '|', ' '] (t :: t2 :: qs)).contains '|' = true :=
        List.elem_iff.mpr (pipe_mem_sepJoinBar (by simp))
      rw [if_pos hc]
      exact mapTrim_splitBar _ (by simp) htok

theorem branch_piece_space (al : List Str) (hne : al ≠ [])
    (htok : ∀ t ∈ al, (∀ c ∈ t, c.isWhitespace = false) ∧ ('|' : Char) ∉ t) :
    (if (' ' :: sepJoin [' ', '|', ' '] al).contains '|' then
        (splitOnChar '|' (' ' :: sepJoin [' ', '|', ' '] al)).map trimStr
      else [trimStr (' ' :: sepJoin [' ', '|', ' '] al)]) = al := by
  have hcc : (' ' :: sepJoin [' ', '|', ' '] al).contains '|' =
      (sepJoin [' ', '|', ' '] al).contains '|' := by
    simp [List.contains_cons]
  have hts : trimStr (' ' :: sepJoin [' ', '|', ' '] al) =
      trimStr (sepJoin [' ', '|', ' '] al) := by
    have heq : ([' '] ++ sepJoin [' ', '|', ' '] al) = ' ' :: sepJoin [' ', '|', ' '] al := by
      simp
    rw [← heq]
    exact trimStr_ws_left (by intro x hx; rw [List.mem_singleton.mp hx]; rfl)
  rw [hcc, hts, mapTrim_split_cons_ws (by decide) (by decide)]
  exact branch_piece al hne htok

theorem cartLoop_acc (altSets : List (List Str)) :
    ∀ (acc : List Str), (∀ r ∈ acc, r ≠ []) →
      cartLoop altSets acc =
        acc.flatMap (fun r => (prodAll altSets).map
          (fun combo => r ++ combo.flatMap (fun t => ',' :: ' ' :: t))) := by
  induction altSets with
  | nil =>
    intro acc hacc
    show acc = _
    simp [prodAll]
  | cons al rest ih =>
    intro acc hacc
    show cartLoop rest
        (acc.flatMap (fun r => al.map
          (fun alt => r ++ (if r.isEmpty then [] else [',', ' ']) ++ alt))) = _
    have hstep : acc.flatMap (fun r => al.map
        (fun alt => r ++ (if r.isEmpty then [] else [',', ' ']) ++ alt)) =
        acc.flatMap (fun r => al.map (fun alt => r ++ [',', ' '] ++ alt)) := by
      refine List.flatMap_congr ?_
      intro r hr
      have : r.isEmpty = false := by
        cases r with
        | nil => exact absurd rfl (hacc [] hr)
        | cons x xs => rfl
      rw [this]
      simp
    rw [hstep]
    have hacc2 : ∀ r2 ∈ acc.flatMap (fun r => al.map (fun alt => r ++ [',', ' '] ++ alt)),
        r2 ≠ [] := by
      intro r2 hr2
      rcases List.mem_flatMap.mp hr2 with ⟨r, hr, hmem⟩
      rcases List.mem_map.mp hmem with ⟨alt, halt, rfl⟩
      intro habs
      have hlen := congrArg List.length habs
      simp at hlen
    rw [ih _ hacc2, List.flatMap_assoc]
    refine List.flatMap_congr ?_
    intro r hr
    rw [List.flatMap_map]
    show (al.flatMap fun alt => (prodAll rest).map
        (fun combo => (r ++ [',', ' '] ++ alt) ++ combo.flatMap (fun t => ',' :: ' ' :: t))) = _
    show _ = ((prodAll (al :: rest)).map
      (fun combo => r ++ combo.flatMap (fun t => ',' :: ' ' :: t)))
    rw [show prodAll (al :: rest) =
      al.flatMap (fun a => (prodAll rest).map (fun combo => a :: combo)) from rfl]
    rw [List.map_flatMap]
    refine List.flatMap_congr ?_
    intro a ha
    rw [List.map_map]
    refine List.map_eq_map_iff.mpr ?_
    intro combo hcombo
    simp [List.append_assoc]

theorem cartLoop_sepJoin (al0 : List Str) (rest : List (List Str))
    (htok : ∀ al ∈ al0 :: rest, ∀ t ∈ al, t ≠ []) :
    cartLoop (al0 :: rest) [[]] =
      (prodAll (al0 :: rest)).map (sepJoin [',', ' ']) := by
  show cartLoop rest
      ([[]].flatMap (fun r => al0.map
        (fun alt => r ++ (if r.isEmpty then [] else [',', ' ']) ++ alt))) = _
  have hacc : [[]].flatMap (fun r => al0.map
      (fun alt => r ++ (if (r : Str).isEmpty then [] else [',', ' ']) ++ alt)) = al0 := by
    simp
  rw [hacc, cartLoop_acc rest al0
    (fun a ha => htok al0 (List.mem_cons_self _ _) a ha)]
  rw [show prodAll (al0 :: rest) =
    al0.flatMap (fun a => (prodAll rest).map (fun combo => a :: combo)) from rfl]
  rw [List.map_flatMap]
  refine List.flatMap_congr ?_
  intro a ha
  rw [List.map_map]
  refine List.map_eq_map_iff.mpr ?_
  intro combo hcombo
  simp [sepJoin_cons_flat]

theorem interior_chars {al0 : List Str} {alrest : List (List Str)}
    (_halts : ∀ al ∈ al0 :: alrest, al ≠ [] ∧ ∀ t ∈ al, cleanTok t = true ∧ t ≠ []) :
    ∀ c ∈ sepJoin [',', ' '] ((al0 :: alrest).map (sepJoin [' ', '|', ' '])),
      c = ',' ∨ c = ' ' ∨ c = '|' ∨ ∃ al ∈ al0 :: alrest, ∃ t ∈ al, c ∈ t := by
  intro c hc
  rcases sepJoin_chars hc with hsep | ⟨p, hp, hcp⟩
  · have hcc : c = ',' ∨ c = ' ' := by simpa using hsep
    rcases hcc with rfl | rfl
    · exact Or.inl rfl
    · exact Or.inr (Or.inl rfl)
  · rcases List.mem_map.mp hp with ⟨al, hal, rfl⟩
    rcases sepJoin_chars hcp with hsep2 | ⟨t, ht, hct⟩
    · have hcc : c = ' ' ∨ c = '|' := by
        have h3 : c = ' ' ∨ c = '|' ∨ c = ' ' := by simpa using hsep2
        rcases h3 with h4 | h4 | h4
        · exact Or.inl h4
        · exact Or.inr h4
        · exact Or.inl h4
      rcases hcc with rfl | rfl
      · exact Or.inr (Or.inl rfl)
      · exact Or.inr (Or.inr (Or.inl rfl))
    · exact Or.inr (Or.inr (Or.inr ⟨al, hal, t, ht, hct⟩))

theorem interior_no_brackets {al0 : List Str} {alrest : List (List Str)}
    (halts : ∀ al ∈ al0 :: alrest, al ≠ [] ∧ ∀ t ∈ al, cleanTok t = true ∧ t ≠ []) :
    ∀ c ∈ sepJoin [',', ' '] ((al0 :: alrest).map (sepJoin [' ', '|', ' '])),
      c ≠ '<' ∧ c ≠ '>' := by
  intro c hc
  rcases interior_chars halts c hc with rfl | rfl | rfl | ⟨al, hal, t, ht, hct⟩
  · exact ⟨by decide, by decide⟩
  · exact ⟨by decide, by decide⟩
  · exact ⟨by decide, by decide⟩
  · have := cleanTok_spec ((halts al hal).2 t ht).1 c hct
    exact ⟨this.1, this.2.1⟩

theorem expandTypeParam_flat (base : Str) (al0 : List Str) (alrest : List (List Str))
    (hb : cleanTok base = true)
    (halts : ∀ al ∈ al0 :: alrest, al ≠ [] ∧ ∀ t ∈ al, cleanTok t = true ∧ t ≠ []) :
    expandTypeParameterAlternatives
        (bracketed base
          (sepJoin [',', ' '] ((al0 :: alrest).map (sepJoin [' ', '|', ' '])))) =
      (prodAll (al0 :: alrest)).map
        (fun combo => bracketed base (sepJoin [',', ' '] combo)) := by
  have hbs := cleanTok_spec hb
  have htokc : ∀ al ∈ al0 :: alrest, ∀ t ∈ al, ∀ c ∈ t,
      c ≠ '<' ∧ c ≠ '>' ∧ c ≠ ',' ∧ c ≠ '|' ∧ c.isWhitespace = false :=
    fun al hal t ht c hc => cleanTok_spec ((halts al hal).2 t ht).1 c hc
  have htok2 : ∀ al ∈ al0 :: alrest, ∀ t ∈ al,
      (∀ c ∈ t, c.isWhitespace = false) ∧ ('|' : Char) ∉ t := by
    intro al hal t ht
    exact ⟨fun c hc => (htokc al hal t ht c hc).2.2.2.2,
      fun hmem => (htokc al hal t ht '|' hmem).2.2.2.1 rfl⟩
  set interior := sepJoin [',', ' '] ((al0 :: alrest).map (sepJoin [' ', '|', ' ']))
    with hintdef
  have hfirst : firstIdxOf '<' (bracketed base interior) = some base.length := by
    unfold bracketed
    exact firstIdxOf_append_cons (fun hmem => (hbs '<' hmem).1 rfl)
  have hlast : lastIdxOf '>' (bracketed base interior) =
      some (base ++ '<' :: interior).length := by
    rw [bracketed_concat]
    refine lastIdxOf_concat ?_
    intro hmem
    rcases List.mem_append.mp hmem with h1 | h1
    · exact (hbs '>' h1).2.1 rfl
    · rcases List.mem_cons.mp h1 with h2 | h2
      · cases h2
      · exact (interior_no_brackets halts '>' h2).2 rfl
  have hpre : (bracketed base interior).take (base.length + 1) = base ++ ['<'] := by
    have hshape : bracketed base interior = (base ++ ['<']) ++ (interior ++ ['>']) := by
      simp [bracketed]
    rw [hshape, show base.length + 1 = (base ++ ['<']).length by simp,
      List.take_left]
  have hsuf : (bracketed base interior).drop (base ++ '<' :: interior).length = ['>'] := by
    rw [bracketed_concat, List.drop_left]
  have hparams : ((bracketed base interior).drop (base.length + 1)).take
      ((base ++ '<' :: interior).length - (base.length + 1)) = interior := by
    have hshape : bracketed base interior = (base ++ ['<']) ++ (interior ++ ['>']) := by
      simp [bracketed]
    rw [hshape, show base.length + 1 = (base ++ ['<']).length by simp, List.drop_left]
    have harith : (base ++ '<' :: interior).length - ((base ++ ['<']).length) =
        interior.length := by
      simp
      omega
    rw [harith, List.take_left]
  have hsplitc : splitOnChar ',' interior =
      sepJoin [' ', '|', ' '] al0 ::
        (alrest.map (sepJoin [' ', '|', ' '])).map (fun q => ' ' :: q) := by
    rw [hintdef, List.map_cons]
    refine splitComma_sepJoin _ _ ?_
    intro p hp hmem
    rcases List.mem_cons.mp hp with rfl | hp2
    · rcases sepJoin_chars hmem with hsep | ⟨t, ht, hct⟩
      · simp at hsep
      · exact (htokc al0 (List.mem_cons_self _ _) t ht ',' hct).2.2.1 rfl
    · rcases List.mem_map.mp hp2 with ⟨al, hal, rfl⟩
      rcases sepJoin_chars hmem with hsep | ⟨t, ht, hct⟩
      · simp at hsep
      · exact (htokc al (List.mem_cons_of_mem _ hal) t ht ',' hct).2.2.1 rfl
  have hbranch : (splitOnChar ',' interior).map
      (fun p => if p.contains '|' then (splitOnChar '|' p).map trimStr
        else [trimStr p]) = al0 :: alrest := by
    rw [hsplitc, List.map_cons, List.map_map]
    have h0 : (if (sepJoin [' ', '|', ' '] al0).contains '|' then
        (splitOnChar '|' (sepJoin [' ', '|', ' '] al0)).map trimStr
        else [trimStr (sepJoin [' ', '|', ' '] al0)]) = al0 :=
      branch_piece al0 (halts al0 (List.mem_cons_self _ _)).1
        (fun t ht => htok2 al0 (List.mem_cons_self _ _) t ht)
    rw [h0]
    congr 1
    rw [List.map_map]
    conv_rhs => rw [← List.map_id alrest]
    refine List.map_eq_map_iff.mpr ?_
    intro al hal
    show (if (' ' :: sepJoin [' ', '|', ' '] al).contains '|' then
        (splitOnChar '|' (' ' :: sepJoin [' ', '|', ' '] al)).map trimStr
      else [trimStr (' ' :: sepJoin [' ', '|', ' '] al)]) = id al
    exact branch_piece_space al (halts al (List.mem_cons_of_mem _ hal)).1
      (fun t ht => htok2 al (List.mem_cons_of_mem _ hal) t ht)
  have hcart := cartLoop_sepJoin al0 alrest
    (fun al hal t ht => ((halts al hal).2 t ht).2)
  unfold expandTypeParameterAlternatives
  rw [hfirst, hlast]
  simp only [hpre, hsuf, hparams, hbranch, hcart]
  rw [List.map_map]
  refine List.map_eq_map_iff.mpr ?_
  intro combo hcombo
  simp [bracketed]

/-- C3 (amended): for a pattern with a single bracket group whose
parameters are alternative sets of flat (bracket-, comma-, pipe- and
whitespace-free) tokens, the expander locates the bracket pair, obtains
one segment per parameter, splits each segment on `|` into that
parameter's trimmed alternative set, and returns the Cartesian product
substituted back between prefix and suffix; in particular
`Base<X | Y, _>` expands to exactly `Base<X, _>` and `Base<Y, _>`.
(The comma split is a plain `str::split(',')`, not the depth-aware split
the claim states: with a nested bracket pair inside a parameter the
behaviour diverges — see the counterexample.) -/
theorem c3_parameter_level_expansion (base : Str) (al0 : List Str)
    (alrest : List (List Str))
    (hb : cleanTok base = true)
    (halts : ∀ al ∈ al0 :: alrest, al ≠ [] ∧ ∀ t ∈ al, cleanTok t = true ∧ t ≠ [])
    (hpipe : ∃ al ∈ al0 :: alrest, 2 ≤ al.length) :
    splitByPipeRespectingBrackets
        (bracketed base
          (sepJoin [',', ' '] ((al0 :: alrest).map (sepJoin [' ', '|', ' '])))) =
      (prodAll (al0 :: alrest)).map
        (fun combo => bracketed base (sepJoin [',', ' '] combo)) := by
  have hbs := cleanTok_spec hb
  rw [splitByPipe_bracket_fallback base _
    (fun c hc => ⟨(hbs c hc).1, (hbs c hc).2.1, (hbs c hc).2.2.2.1, (hbs c hc).2.2.2.2⟩)
    (interior_no_brackets halts) ?_]
  · exact expandTypeParam_flat base al0 alrest hb halts
  · rcases hpipe with ⟨al, hal, hlen⟩
    exact sepJoin_mem_of_mem (List.mem_map_of_mem _ hal) (pipe_mem_sepJoinBar hlen)

/-- C3 witness: the claim's own instance, `Base<X | Y, _>` expanding to
exactly `Base<X, _>` and `Base<Y, _>`. -/
theorem c3_parameter_level_expansion_witness :
    str "Base<X | Y, _>" =
      bracketed (str "Base")
        (sepJoin [',', ' ']
          (([[str "X", str "Y"], [str "_"]] : List (List Str)).map
            (sepJoin [' ', '|', ' ']))) ∧
    splitByPipeRespectingBrackets (str "Base<X | Y, _>") =
      [str "Base<X, _>", str "Base<Y, _>"] := by
  have h1 : str "Base<X | Y, _>" =
      bracketed (str "Base")
        (sepJoin [',', ' ']
          (([[str "X", str "Y"], [str "_"]] : List (List Str)).map
            (sepJoin [' ', '|', ' ']))) := by rfl
  refine ⟨h1, ?_⟩
  rw [h1, c3_parameter_level_expansion (str "Base") [str "X", str "Y"] [[str "_"]]
    (by decide) (by decide) ⟨[str "X", str "Y"], by decide, by decide⟩]
  rfl

/-- C3 counterexample: for `Base<Inner<A,B> | C>` (a `|` with no
depth-0 occurrence, next to a parameter containing a nested bracket
pair), the source splits the interior on the nested comma as well,
producing `Base<Inner<A, B>>` and the malformed `Base<Inner<A, C>`,
whereas the claim's depth-aware comma split (modelled by
`specParamExpansion`) would produce `Base<Inner<A,B>>` and `Base<C>`. -/
theorem c3_counterexample_nested_comma :
    splitByPipeRespectingBrackets (str "Base<Inner<A,B> | C>") =
      [str "Base<Inner<A, B>>", str "Base<Inner<A, C>"] ∧
    specParamExpansion (str "Base<Inner<A,B> | C>") =
      [str "Base<Inner<A,B>>", str "Base<C>"] ∧
    splitByPipeRespectingBrackets (str "Base<Inner<A,B> | C>") ≠
      specParamExpansion (str "Base<Inner<A,B> | C>") := by
  refine ⟨by rfl, by rfl, by decide⟩

theorem trimStr_all_ws {cur : Str} (h : ∀ c ∈ cur, c.isWhitespace = true) :
    trimStr cur = [] := by
  rw [trimStr_eq_dropTrail, dropWhile_eq_nil_of_all h]
  rfl

theorem scanGo_chunk (params : List Str) :
    ∀ (t : Str), (∀ c ∈ t, c ≠ '<' ∧ c ≠ '>' ∧ c ≠ ',') →
      ∀ (rest : Str) (holes : List Nat) (res : Str) (idx : Nat) (inA : Bool) (cur : Str),
        scanGo params (t ++ rest) holes res idx inA cur =
          scanGo params rest holes res idx inA (cur ++ t) := by
  intro t
  induction t with
  | nil => intro h rest holes res idx inA cur; simp
  | cons a u ih =>
    intro h rest holes res idx inA cur
    rcases h a (List.mem_cons_self _ _) with ⟨h1, h2, h3⟩
    rw [List.cons_append]
    conv_lhs => unfold scanGo
    rw [if_neg h1, if_neg h2,
      if_neg (by simp [h3] : ¬((a = ',' && inA) = true)),
      ih (fun c hc => h c (List.mem_cons_of_mem _ hc)) rest holes res idx inA]
    simp

theorem scanSegs (params : List Str) :
    ∀ (ts : List Str) (k : Nat) (holes : List Nat) (res cur : Str),
      (∀ c ∈ cur, c.isWhitespace = true) →
      (∀ t ∈ ts, cleanTok t = true ∧ t ≠ []) →
      (∀ j t, ts.get? j = some t → t = ['_'] → k + j < params.length) →
      ∃ res2, scanGo params (sepJoin [',', ' '] ts ++ ['>']) holes res k true cur =
        .ok (holes ++ holeIdxsFrom k ts, res2) := by
  intro ts
  induction ts with
  | nil =>
    intro k holes res cur hcur hts hrange
    show ∃ res2, scanGo params ['>'] holes res k true cur = _
    unfold scanGo
    rw [if_neg (by decide : ¬(('>' : Char) = '<')), if_pos rfl]
    by_cases hc : cur.isEmpty = true
    · rw [if_pos hc]
      exact ⟨res ++ ['>'], by unfold scanGo; simp [holeIdxsFrom]⟩
    · rw [if_neg hc, if_neg (by rw [trimStr_all_ws hcur]; decide)]
      exact ⟨res ++ cur ++ ['>'], by unfold scanGo; simp [holeIdxsFrom]⟩
  | cons t rest ih =>
    intro k holes res cur hcur hts hrange
    have htcl := cleanTok_spec (hts t (List.mem_cons_self _ _)).1
    have htne := (hts t (List.mem_cons_self _ _)).2
    have htrim : trimStr (cur ++ t) = t := by
      rw [trimStr_ws_left hcur]
      exact trimStr_eq_self (fun c hc => (htcl c hc).2.2.2.2)
    have hne2 : (cur ++ t).isEmpty = false := by
      cases ht2 : cur ++ t with
      | nil =>
        exact absurd (List.append_eq_nil.mp ht2).2 htne
      | cons x xs => rfl
    cases rest with
    | nil =>
      show ∃ res2, scanGo params (t ++ ['>']) holes res k true cur = _
      rw [scanGo_chunk params t (fun c hc => ⟨(htcl c hc).1, (htcl c hc).2.1,
        (htcl c hc).2.2.1⟩)]
      unfold scanGo
      rw [if_neg (by decide : ¬(('>' : Char) = '<')), if_pos rfl,
        if_neg (by simp [hne2])]
      by_cases hu : t = ['_']
      · rw [if_pos (htrim.trans hu ▸ rfl)]
        have hk : k < params.length := by
          have := hrange 0 t rfl hu
          omega
        rw [if_pos hk]
        refine ⟨res ++ params.getD k [] ++ ['>'], ?_⟩
        unfold scanGo
        simp [holeIdxsFrom, hu]
      · rw [if_neg (by rw [htrim]; exact hu)]
        refine ⟨res ++ (cur ++ t) ++ ['>'], ?_⟩
        unfold scanGo
        simp [holeIdxsFrom, hu]
    | cons t2 qs =>
      have hshape : sepJoin [',', ' '] (t :: t2 :: qs) ++ ['>'] =
          t ++ (',' :: ' ' :: (sepJoin [',', ' '] (t2 :: qs) ++ ['>'])) := by
        simp [sepJoin]
      rw [hshape, scanGo_chunk params t (fun c hc => ⟨(htcl c hc).1, (htcl c hc).2.1,
        (htcl c hc).2.2.1⟩)]
      unfold scanGo
      rw [if_neg (by decide : ¬((',' : Char) = '<')),
        if_neg (by decide : ¬((',' : Char) = '>')),
        if_pos (by simp : ((',' : Char) = ',' && true) = true),
        if_neg (by simp [hne2])]
      have hrange2 : ∀ j t3, (t2 :: qs).get? j = some t3 → t3 = ['_'] →
          (k + 1) + j < params.length := by
        intro j t3 hj h3
        have := hrange (j + 1) t3 (by simpa using hj) h3
        omega
      have hts2 : ∀ u ∈ t2 :: qs, cleanTok u = true ∧ u ≠ [] :=
        fun u hu => hts u (List.mem_cons_of_mem _ hu)
      by_cases hu : t = ['_']
      · rw [if_pos (htrim.trans hu ▸ rfl)]
        have hk : k < params.length := by
          have := hrange 0 t rfl hu
          omega
        rw [if_pos hk]
        unfold scanGo
        rw [if_neg (by decide : ¬((' ' : Char) = '<')),
          if_neg (by decide : ¬((' ' : Char) = '>')),
          if_neg (by decide : ¬(((' ' : Char) = ',' && true) = true))]
        rcases ih (k + 1) (holes ++ [k]) _ [' '] (by decide) hts2 hrange2 with ⟨res2, hres2⟩
        refine ⟨res2, ?_⟩
        simp only [List.nil_append]
        rw [hres2]
        simp [holeIdxsFrom, hu]
      · rw [if_neg (by rw [htrim]; exact hu)]
        unfold scanGo
        rw [if_neg (by decide : ¬((' ' : Char) = '<')),
          if_neg (by decide : ¬((' ' : Char) = '>')),
          if_neg (by decide : ¬(((' ' : Char) = ',' && true) = true))]
        rcases ih (k + 1) holes _ [' '] (by decide) hts2 hrange2 with ⟨res2, hres2⟩
        refine ⟨res2, ?_⟩
        simp only [List.nil_append]
        rw [hres2]
        simp [holeIdxsFrom, hu]

theorem startsWithL_self_append (p v : Str) : startsWithL p (p ++ v) = true := by
  induction p with
  | nil => rfl
  | cons a u ih => simp [startsWithL, ih]

theorem containsStr_of_starts {s p : Str} (h : startsWithL p s = true) :
    containsStr s p = true := by
  cases s with
  | nil =>
    cases p with
    | nil => rfl
    | cons a u => simp [startsWithL] at h
  | cons b w => simp [containsStr, h]

theorem containsStr_append_left (u : Str) {w p : Str}
    (h : containsStr w p = true) : containsStr (u ++ w) p = true := by
  induction u with
  | nil => simpa using h
  | cons a v ih => simp [containsStr, ih]

theorem containsStr_of_decomp {s u p v : Str} (h : s = u ++ (p ++ v)) :
    containsStr s p = true := by
  rw [h]
  exact containsStr_append_left u (containsStr_of_starts (startsWithL_self_append p v))

theorem sepJoin_head_shape (sep : Str) (t : Str) (rest : List Str) :
    ∃ w, sepJoin sep (t :: rest) = t ++ w := by
  cases rest with
  | nil => exact ⟨[], by simp [sepJoin]⟩
  | cons r rs => exact ⟨sep ++ sepJoin sep (r :: rs), by simp [sepJoin]⟩

theorem sepJoin_hole_decomp :
    ∀ (ts : List Str) (j : Nat), ts.get? (j + 1) = some ['_'] →
      ∃ u v, sepJoin [',', ' '] ts = u ++ ([',', ' ', '_'] ++ v) := by
  intro ts
  induction ts with
  | nil => intro j h; simp at h
  | cons t rest ih =>
    intro j h
    simp only [List.get?_cons_succ] at h
    cases j with
    | zero =>
      cases rest with
      | nil => simp at h
      | cons r0 rs =>
        have hr0 : r0 = ['_'] := by simpa using h
        subst hr0
        rcases sepJoin_head_shape [',', ' '] ['_'] rs with ⟨w, hw⟩
        refine ⟨t, w, ?_⟩
        show t ++ [',', ' '] ++ sepJoin [',', ' '] (['_'] :: rs) = _
        rw [hw]
        simp
    | succ j2 =>
      cases rest with
      | nil => simp at h
      | cons r0 rs =>
        rcases ih j2 h with ⟨u, v, huv⟩
        refine ⟨t ++ [',', ' '] ++ u, v, ?_⟩
        show t ++ [',', ' '] ++ sepJoin [',', ' '] (r0 :: rs) = _
        rw [huv]
        simp

theorem holeIdxsFrom_eq_nil {ts : List Str} (h : ∀ t ∈ ts, t ≠ ['_']) :
    ∀ k, holeIdxsFrom k ts = [] := by
  induction ts with
  | nil => intro k; rfl
  | cons t rest ih =>
    intro k
    unfold holeIdxsFrom
    rw [if_neg (h t (List.mem_cons_self _ _)),
      ih (fun u hu => h u (List.mem_cons_of_mem _ hu)) (k + 1)]
    rfl

theorem hole_heuristic_fires (base : Str) {ts : List Str} {j : Nat}
    (hj : ts.get? j = some ['_']) :
    (containsStr (bracketed base (sepJoin [',', ' '] ts)) (str "<_") ||
      containsStr (bracketed base (sepJoin [',', ' '] ts)) (str ", _") ||
      containsStr (bracketed base (sepJoin [',', ' '] ts)) (str "_>")) = true := by
  cases j with
  | zero =>
    cases ts with
    | nil => simp at hj
    | cons t0 rest =>
      have ht0 : t0 = ['_'] := by simpa using hj
      subst ht0
      rcases sepJoin_head_shape [',', ' '] ['_'] rest with ⟨w, hw⟩
      have hc : containsStr (bracketed base (sepJoin [',', ' '] (['_'] :: rest)))
          (str "<_") = true := by
        refine containsStr_of_decomp (u := base) (v := w ++ ['>']) ?_
        rw [bracketed, hw]
        simp [str]
      rw [hc]
      simp
  | succ j2 =>
    rcases sepJoin_hole_decomp ts j2 hj with ⟨u, v, huv⟩
    have hc : containsStr (bracketed base (sepJoin [',', ' '] ts))
        (str ", _") = true := by
      refine containsStr_of_decomp (u := base ++ '<' :: u) (v := v ++ ['>']) ?_
      rw [bracketed, huv]
      simp [str]
    rw [hc]
    simp

theorem scanGo_bracketed (params : List Str) (base : Str) (ts : List Str)
    (hb : cleanTok base = true)
    (hts : ∀ t ∈ ts, cleanTok t = true ∧ t ≠ [])
    (hrange : ∀ j t, ts.get? j = some t → t = ['_'] → j < params.length) :
    ∃ res2, scanGo params (bracketed base (sepJoin [',', ' '] ts)) [] [] 0 false [] =
      .ok (holeIdxsFrom 0 ts, res2) := by
  have hbs := cleanTok_spec hb
  unfold bracketed
  rw [scanGo_chunk params base
    (fun c hc => ⟨(hbs c hc).1, (hbs c hc).2.1, (hbs c hc).2.2.1⟩)]
  unfold scanGo
  rw [if_pos rfl]
  rcases scanSegs params ts 0 [] ([] ++ ([] ++ base) ++ ['<']) [] (by intro c hc; cases hc)
    hts (fun j t hj ht => by simpa using hrange j t hj ht) with ⟨res2, hres2⟩
  refine ⟨res2, ?_⟩
  rw [hres2]
  simp

/-- C4 (amended): for concrete pattern strings with one non-nested
bracket group whose parameters are whitespace-free tokens separated by
`", "`, the parser classifies position `i` as a Wildcard exactly when
token `i` is the bare `_` (recording positions in increasing order via
`holeIdxsFrom`), and keeps every other token concrete, provided every
wildcard position is within the generic-parameter count.  Contrary to
the claim, classification is not whitespace-independent, and with nested
brackets the slot index does not follow top-level commas (see the
counterexample): wildcard scanning only runs at all when the string
contains one of the literal substrings `<_`, `, _`, `_>`. -/
theorem c4_wildcard_slot_classification (base : Str) (ts params : List Str)
    (hb : cleanTok base = true)
    (hts : ∀ t ∈ ts, cleanTok t = true ∧ t ≠ [])
    (hrange : ∀ j t, ts.get? j = some t → t = ['_'] → j < params.length) :
    ∃ resolved,
      parseTargetWithTypeHoles (bracketed base (sepJoin [',', ' '] ts)) params =
        .ok { targetType := resolved, typeHolePositions := holeIdxsFrom 0 ts } := by
  unfold parseTargetWithTypeHoles
  by_cases hh : (containsStr (bracketed base (sepJoin [',', ' '] ts)) (str "<_") ||
      containsStr (bracketed base (sepJoin [',', ' '] ts)) (str ", _") ||
      containsStr (bracketed base (sepJoin [',', ' '] ts)) (str "_>")) = true
  · rw [if_neg (by rw [hh]; decide)]
    rcases scanGo_bracketed params base ts hb hts hrange with ⟨res2, hres2⟩
    rw [hres2]
    exact ⟨res2, rfl⟩
  · have hX : (containsStr (bracketed base (sepJoin [',', ' '] ts)) (str "<_") ||
        containsStr (bracketed base (sepJoin [',', ' '] ts)) (str ", _") ||
        containsStr (bracketed base (sepJoin [',', ' '] ts)) (str "_>")) = false := by
      simpa using hh
    rw [if_pos (by rw [hX]; decide)]
    have hnone : ∀ t ∈ ts, t ≠ ['_'] := by
      intro t ht habs
      subst habs
      rcases List.get?_of_mem ht with ⟨j, hj⟩
      have hfires := hole_heuristic_fires base hj
      rw [hX] at hfires
      cases hfires
    exact ⟨bracketed base (sepJoin [',', ' '] ts),
      by rw [holeIdxsFrom_eq_nil hnone 0]⟩

/-- C4 witness: the pattern `T<_, A>` over generic parameters
`[Base, Kind]` records exactly the wildcard position 0. -/
theorem c4_wildcard_slot_classification_witness :
    str "T<_, A>" = bracketed (str "T") (sepJoin [',', ' '] [str "_", str "A"]) ∧
    holeIdxsFrom 0 [str "_", str "A"] = [0] ∧
    (∃ resolved,
      parseTargetWithTypeHoles
          (bracketed (str "T") (sepJoin [',', ' '] [str "_", str "A"]))
          [str "Base", str "Kind"] =
        .ok { targetType := resolved
              typeHolePositions := holeIdxsFrom 0 [str "_", str "A"] }) := by
  refine ⟨by rfl, by rfl, ?_⟩
  refine c4_wildcard_slot_classification (str "T") [str "_", str "A"]
    [str "Base", str "Kind"] (by decide) (by decide) ?_
  intro j t hj ht
  cases j with
  | zero => decide
  | succ n =>
    cases n with
    | zero => decide
    | succ m => simp [str] at hj

/-- C4 counterexample: the segment ` _ ` of `Base< _ >` trims to `_`,
yet the parser records no wildcard (the substring heuristic `<_`, `, _`,
`_>` does not fire), so classification is not independent of surrounding
whitespace; and for `Base<Inner<A,B>, _>` the claim's top-level split
would classify position 1 as a Wildcard, while the parser records no
hole position at all. -/
theorem c4_counterexample_whitespace_wildcard :
    trimStr (str " _ ") = str "_" ∧
    parseTargetWithTypeHoles (str "Base< _ >") [str "P"] =
      .ok { targetType := str "Base< _ >", typeHolePositions := [] } ∧
    parseTargetWithTypeHoles (str "Base<Inner<A,B>, _>") [str "P", str "Q"] =
      .ok { targetType := str "Base<Inner<A, B>, _>", typeHolePositions := [] } := by
  refine ⟨by decide, by rfl, by rfl⟩

end PhantomCoerce
